import Mathlib

/-!
Verification of the arena/handle layer of the `taffy` node-identity and
tree-management library (`src/node.rs`).

The `Taffy` facade in `node.rs` is embedded directly.  The `Forest` arena it
delegates to lives in a file that is not part of the sources; every `Forest`
operation is therefore modelled from the specification (sections 3, 4.3-4.6 of
the design document) and carries a doc comment saying so.  Machine panics
(out-of-bounds indexing, `unwrap` on `None`) are modelled by `Option`: a
result of `none` means the corresponding Rust code would abort.

Style values, measure callbacks and geometry are external collaborators of
this layer; the development is parametric in the style type `σ` and the
measure-function type `μ`, and `Layout` is an opaque token.
-/

/-- Internal node id: a dense index into the arena (`type NodeId = usize`). -/
abbrev NodeId := Nat

/-- The identifier of a node or instance (`struct Id(usize)`). -/
structure Ident where
  val : Nat
deriving DecidableEq

/-- An `Id`-containing identifier (`struct Node { instance: Ident, local: Ident }`).
The Rust field names `instance` and `local` are Lean keywords, hence
`instanceId` and `localId`. -/
structure Node where
  instanceId : Ident
  localId : Ident
deriving DecidableEq

/-- Error returned when a handle does not resolve (`error::InvalidNode`). -/
structure InvalidNode where
  node : Node
deriving DecidableEq

/-- Error for child-indexed operations (`error::InvalidChild`), as used in
`node.rs`: an invalid parent handle, an invalid new-child handle, or an
out-of-range index carrying the parent, the requested index and the count. -/
inductive InvalidChild where
  | InvalidParentNode (node : Node)
  | InvalidChildNode (node : Node)
  | ChildIndexOutOfBounds (parent : Node) (child_index : Nat) (child_count : Nat)
deriving DecidableEq

/-- A bump allocator (`struct Allocator { last_id: AtomicUsize }`).  The model
is sequential, matching the single-writer discipline of the spec; `allocate`
is fetch-and-increment. -/
structure Allocator where
  last_id : Nat
deriving DecidableEq

/-- Creates a fresh allocator (`Allocator::new`). -/
def Allocator.new : Allocator := { last_id := 0 }

/-- Fetch-and-increment (`Allocator::allocate`). -/
def Allocator.allocate (a : Allocator) : Ident × Allocator :=
  ({ val := a.last_id }, { last_id := a.last_id + 1 })

/-- The map container of `crate::sys` (a hash map), embedded as an
association list; only `get`/`insert`/`remove`/`clear` are used by `node.rs`
and iteration order is never observed. -/
abbrev Map (α β : Type) := List (α × β)

/-- Map lookup (`Map::get`). -/
def Map.get {α β : Type} [DecidableEq α] : Map α β → α → Option β
  | [], _ => none
  | (k, v) :: m, k' => if k' = k then some v else Map.get m k'

/-- Removal of a key (`Map::remove`, without the returned value). -/
def Map.remove {α β : Type} [DecidableEq α] : Map α β → α → Map α β
  | [], _ => []
  | (k, v) :: m, k' => if k = k' then Map.remove m k' else (k, v) :: Map.remove m k'

/-- Insertion (`Map::insert`): replaces any previous binding of the key. -/
def Map.insert {α β : Type} [DecidableEq α] (m : Map α β) (k : α) (v : β) : Map α β :=
  (k, v) :: m.remove k

/-- The cached layout of a node.  Geometry is an external collaborator of the
arena/handle layer (spec section 1), so its content is opaque here. -/
structure Layout where
deriving DecidableEq

/-- Modelled from the spec: a node record of the arena (spec section 3,
NodeRecord): style, optional measure callback, cached layout, dirty flag.
Child and parent lists are kept in the separate dense arrays of `Forest`,
which is how `node.rs` accesses them (`forest.children[id]`,
`forest.parents[id]`). -/
structure NodeData (σ μ : Type) where
  style : σ
  measure : Option μ
  layout : Layout
  is_dirty : Bool
deriving DecidableEq

/-- Modelled from the spec: the dense arena (`Forest`, whose source file is
not part of the sources).  Three parallel dense arrays indexed by `NodeId`:
node records, child lists and parent lists. -/
structure Forest (σ μ : Type) where
  nodes : List (NodeData σ μ)
  children : List (List NodeId)
  parents : List (List NodeId)
deriving DecidableEq

/-- In-place update of one slot of a dense array; out-of-range updates are
no-ops (used only for spec-modelled `Forest` internals, or where a preceding
bounds check already guarantees the index is in range). -/
def modifyIdx {α : Type} : List α → Nat → (α → α) → List α
  | [], _, _ => []
  | a :: l, 0, f => f a :: l
  | a :: l, n + 1, f => a :: modifyIdx l n f

/-- In-place update of one slot with the Rust panic on out-of-range indexing
made explicit (`none`). -/
def modifyIdxP {α : Type} (l : List α) (i : Nat) (f : α → α) : Option (List α) :=
  if i < l.length then some (modifyIdx l i f) else none

/-- One round of following parent (or child) links from a set of indices:
the set together with every neighbour of its members. -/
def adjUnion (g : List (List NodeId)) (s : List NodeId) : List NodeId :=
  s.foldl (fun acc i => acc ++ (g[i]?.getD [])) s

/-- Indices reachable from `s` in at most `fuel` steps of `adjUnion`. -/
def reach (g : List (List NodeId)) : Nat → List NodeId → List NodeId
  | 0, s => s
  | n + 1, s => reach g n (adjUnion g s)

/-- Sets the dirty flag of every listed slot to `b`. -/
def setDirty {σ μ : Type} (ns : List (NodeData σ μ)) (ids : List NodeId) (b : Bool) :
    List (NodeData σ μ) :=
  ids.foldl (fun ns i => modifyIdx ns i (fun d => { d with is_dirty := b })) ns

/-- Modelled from the spec (section 4.6): `Forest::mark_dirty` flags the node
and every ancestor reachable through the parent relation; the closure is a
bounded iteration of the one-step neighbourhood, which covers every ancestor
since paths in the arena graph need at most `nodes.length` hops. -/
def Forest.mark_dirty {σ μ : Type} (f : Forest σ μ) (id : NodeId) : Forest σ μ :=
  { f with nodes := setDirty f.nodes (reach f.parents f.nodes.length [id]) true }

/-- Modelled from the spec (section 4.6): `Forest::compute_layout` refreshes
and un-dirties every node reachable from the root through the child relation.
The sizing mathematics is an external collaborator (spec section 1) and
`Layout` is opaque, so the observable effect here is clearing dirty flags. -/
def Forest.compute_layout {σ μ : Type} (f : Forest σ μ) (id : NodeId) : Forest σ μ :=
  { f with nodes := setDirty f.nodes (reach f.children f.nodes.length [id]) false }

/-- Modelled from the spec (section 4.3): `Forest::new_leaf` appends a record
with the given style and measure, no children, no parents, marked dirty, and
returns its index. -/
def Forest.new_leaf {σ μ : Type} (f : Forest σ μ) (style : σ) (measure : μ) :
    Forest σ μ × NodeId :=
  let id := f.nodes.length
  ({ nodes := f.nodes ++ [{ style := style, measure := some measure, layout := {}, is_dirty := true }],
     children := f.children ++ [[]],
     parents := f.parents ++ [[]] }, id)

/-- Modelled from the spec (section 4.3): `Forest::new_with_children` appends
a dirty record wired to the given children in order and appends the new index
to each child's parent list, returning the new index. -/
def Forest.new_with_children {σ μ : Type} (f : Forest σ μ) (style : σ)
    (children : List NodeId) : Forest σ μ × NodeId :=
  let id := f.nodes.length
  ({ nodes := f.nodes ++ [{ style := style, measure := none, layout := {}, is_dirty := true }],
     children := f.children ++ [children],
     parents := children.foldl (fun ps c => modifyIdx ps c (· ++ [id])) (f.parents ++ [[]]) }, id)

/-- Modelled from the spec (section 4.4): `Forest::add_child` appends the
edge on both sides without detaching anything and marks the parent dirty. -/
def Forest.add_child {σ μ : Type} (f : Forest σ μ) (node : NodeId) (child : NodeId) :
    Forest σ μ :=
  (({ f with children := modifyIdx f.children node (· ++ [child]),
             parents := modifyIdx f.parents child (· ++ [node]) } : Forest σ μ)).mark_dirty node

/-- Modelled from the spec (section 4.4): `Forest::remove_child_at_index`
detaches the edge at the given position — the child leaves the parent's child
list, the parent leaves the child's parent list — marks the parent dirty and
returns the detached child's index.  `none` models the panic on a bad
position. -/
def Forest.remove_child_at_index {σ μ : Type} (f : Forest σ μ) (node : NodeId)
    (index : Nat) : Option (Forest σ μ × NodeId) :=
  match f.children[node]?.bind (fun l => l[index]?) with
  | none => none
  | some child =>
    some ((({ f with children := modifyIdx f.children node (·.eraseIdx index),
                     parents := modifyIdx f.parents child (·.erase node) } : Forest σ μ)).mark_dirty node,
          child)

/-- Modelled from the spec (section 4.4): `Forest::remove_child` detaches one
edge by value — the position of the child in the parent's child list is
looked up first, and the Rust `unwrap` panics (`none`) when the edge is
absent. -/
def Forest.remove_child {σ μ : Type} (f : Forest σ μ) (node : NodeId) (child : NodeId) :
    Option (Forest σ μ × NodeId) :=
  match f.children[node]?.bind (fun l => l.indexOf? child) with
  | none => none
  | some idx => f.remove_child_at_index node idx

/-- Modelled from the spec (section 4.5): `Forest::swap_remove` performs
swap-with-last removal.  The record in the final slot is moved into the freed
slot (unless that slot was the final one) and the arena shrinks by one; the
result is the moved record's old index, or `none` inside `some` when nothing
moved.  The outer `none` models the panic on an out-of-range index.  Per the
spec this neither cascades to children nor detaches the removed node from its
former parents' child lists. -/
def Forest.swap_remove {σ μ : Type} (f : Forest σ μ) (id : NodeId) :
    Option (Forest σ μ × Option NodeId) :=
  if id + 1 > f.nodes.length then none
  else
    let last := f.nodes.length - 1
    if id = last then
      some (({ nodes := f.nodes.take last, children := f.children.take last,
               parents := f.parents.take last } : Forest σ μ), none)
    else
      match f.nodes[last]?, f.children[last]?, f.parents[last]? with
      | some nd, some cl, some pl =>
        some (({ nodes := (modifyIdx f.nodes id (fun _ => nd)).take last,
                 children := (modifyIdx f.children id (fun _ => cl)).take last,
                 parents := (modifyIdx f.parents id (fun _ => pl)).take last } : Forest σ μ),
              some last)
      | _, _, _ => none

/-- Modelled from the spec (section 4.5): `Forest::clear` drops every
record. -/
def Forest.clear {σ μ : Type} : Forest σ μ :=
  { nodes := [], children := [], parents := [] }

/-- `Forest::with_capacity`: capacity only pre-allocates; the arena starts
empty. -/
def Forest.with_capacity {σ μ : Type} (_capacity : Nat) : Forest σ μ :=
  Forest.clear

/-- A forest of UI nodes (`struct Taffy` of `node.rs`): instance id,
per-instance allocator, the two maps of the bimap, and the arena. -/
structure Taffy (σ μ : Type) where
  id : Ident
  allocator : Allocator
  nodes_to_ids : Map Node NodeId
  ids_to_nodes : Map NodeId Node
  forest : Forest σ μ
deriving DecidableEq

/-- `Taffy::with_capacity`, with the id drawn from the process-wide
`INSTANCE_ALLOCATOR` passed in by the world semantics below. -/
def Taffy.with_capacity {σ μ : Type} (id : Ident) (capacity : Nat) : Taffy σ μ :=
  { id := id, allocator := Allocator.new, nodes_to_ids := [], ids_to_nodes := [],
    forest := Forest.with_capacity capacity }

/-- `Taffy::allocate_node`: draws a local id and pairs it with the instance
id. -/
def Taffy.allocate_node {σ μ : Type} (t : Taffy σ μ) : Node × Taffy σ μ :=
  let (localId, a1) := t.allocator.allocate
  ({ instanceId := t.id, localId := localId }, { t with allocator := a1 })

/-- `Taffy::add_node`: stores both directions of the bimap entry. -/
def Taffy.add_node {σ μ : Type} (t : Taffy σ μ) (node : Node) (id : NodeId) : Taffy σ μ :=
  { t with nodes_to_ids := t.nodes_to_ids.insert node id,
           ids_to_nodes := t.ids_to_nodes.insert id node }

/-- `Taffy::find_node`: forward-map lookup, `InvalidNode` when absent. -/
def Taffy.find_node {σ μ : Type} (t : Taffy σ μ) (node : Node) : Except InvalidNode NodeId :=
  match t.nodes_to_ids.get node with
  | some id => Except.ok id
  | none => Except.error { node := node }

/-- Collects a list of fallible results, stopping at the first error — the
semantics of Rust's `collect::<Result<Vec<_>, _>>()`. -/
def collectE {α β ε : Type} (f : α → Except ε β) : List α → Except ε (List β)
  | [] => Except.ok []
  | a :: l =>
    match f a with
    | Except.error e => Except.error e
    | Except.ok b =>
      match collectE f l with
      | Except.error e => Except.error e
      | Except.ok bs => Except.ok (b :: bs)

/-- Collects a list of lookups that panic on failure — the semantics of
mapping a panicking map index over a list. -/
def collectO {α β : Type} (f : α → Option β) : List α → Option (List β)
  | [] => some []
  | a :: l =>
    match f a with
    | none => none
    | some b =>
      match collectO f l with
      | none => none
      | some bs => some (b :: bs)

/-- `Taffy::new_leaf`: allocates a handle, appends a leaf record, registers
the bimap entry, returns `Ok(handle)`. -/
def Taffy.new_leaf {σ μ : Type} (t : Taffy σ μ) (style : σ) (measure : μ) :
    Taffy σ μ × Except InvalidNode Node :=
  let (node, t1) := t.allocate_node
  let (f1, id) := t1.forest.new_leaf style measure
  (Taffy.add_node { t1 with forest := f1 } node id, Except.ok node)

/-- `Taffy::new_with_children`: allocates a handle, resolves every child
handle (failing with the first `InvalidNode` and touching neither the maps
nor the arena — though the local-id allocator has already been bumped), then
appends the wired parent record and registers it. -/
def Taffy.new_with_children {σ μ : Type} (t : Taffy σ μ) (style : σ) (children : List Node) :
    Taffy σ μ × Except InvalidNode Node :=
  let (node, t1) := t.allocate_node
  match collectE t1.find_node children with
  | Except.error e => (t1, Except.error e)
  | Except.ok childrenIds =>
    let (f1, id) := t1.forest.new_with_children style childrenIds
    (Taffy.add_node { t1 with forest := f1 } node id, Except.ok node)

/-- `Taffy::clear`: drops both maps and the arena; the allocators are not
reset. -/
def Taffy.clear {σ μ : Type} (t : Taffy σ μ) : Taffy σ μ :=
  { t with nodes_to_ids := [], ids_to_nodes := [], forest := Forest.clear }

/-- `Taffy::remove`: resolves the handle, erases both bimap entries, performs
swap-with-last compaction, and when a record moved rewrites the single bimap
entry of the moved node to its new slot.  `none` models the `unwrap` panic /
arena panic. -/
def Taffy.remove {σ μ : Type} (t : Taffy σ μ) (node : Node) :
    Option (Taffy σ μ × Except InvalidNode NodeId) :=
  match t.find_node node with
  | Except.error e => some (t, Except.error e)
  | Except.ok id =>
    let t1 : Taffy σ μ :=
      { t with nodes_to_ids := t.nodes_to_ids.remove node,
               ids_to_nodes := t.ids_to_nodes.remove id }
    match t1.forest.swap_remove id with
    | none => none
    | some (f1, none) => some ({ t1 with forest := f1 }, Except.ok id)
    | some (f1, some new_id) =>
      match t1.ids_to_nodes.get new_id with
      | none => none
      | some nw =>
        some ({ t1 with forest := f1,
                        nodes_to_ids := t1.nodes_to_ids.insert nw id,
                        ids_to_nodes := (t1.ids_to_nodes.remove new_id).insert id nw },
              Except.ok id)

/-- `Taffy::set_measure`: resolves, stores the new measure, marks dirty. -/
def Taffy.set_measure {σ μ : Type} (t : Taffy σ μ) (node : Node) (measure : Option μ) :
    Option (Taffy σ μ × Except InvalidNode Unit) :=
  match t.find_node node with
  | Except.error e => some (t, Except.error e)
  | Except.ok id =>
    match modifyIdxP t.forest.nodes id (fun nd => { nd with measure := measure }) with
    | none => none
    | some ns =>
      some ({ t with forest := ({ t.forest with nodes := ns } : Forest σ μ).mark_dirty id },
            Except.ok ())

/-- `Taffy::add_child`: resolves both handles, then delegates to the
arena. -/
def Taffy.add_child {σ μ : Type} (t : Taffy σ μ) (parent : Node) (child : Node) :
    Taffy σ μ × Except InvalidNode Unit :=
  match t.find_node parent with
  | Except.error e => (t, Except.error e)
  | Except.ok node_id =>
    match t.find_node child with
    | Except.error e => (t, Except.error e)
    | Except.ok child_id =>
      ({ t with forest := t.forest.add_child node_id child_id }, Except.ok ())

/-- `Taffy::set_children`: resolves the parent and every child, detaches the
parent from each previous child's parent list, attaches it to every new
child, overwrites the child list and marks the parent dirty. -/
def Taffy.set_children {σ μ : Type} (t : Taffy σ μ) (parent : Node) (children : List Node) :
    Option (Taffy σ μ × Except InvalidNode Unit) :=
  match t.find_node parent with
  | Except.error e => some (t, Except.error e)
  | Except.ok node_id =>
    match collectE t.find_node children with
    | Except.error e => some (t, Except.error e)
    | Except.ok children_id =>
      match t.forest.children[node_id]? with
      | none => none
      | some oldkids =>
        match oldkids.foldlM (fun ps c => modifyIdxP ps c (·.filter (· ≠ node_id)))
            t.forest.parents with
        | none => none
        | some ps1 =>
          match children_id.foldlM (fun ps c => modifyIdxP ps c (· ++ [node_id])) ps1 with
          | none => none
          | some ps2 =>
            some ({ t with forest :=
                      ({ t.forest with
                         parents := ps2,
                         children := modifyIdx t.forest.children node_id (fun _ => children_id) }
                        : Forest σ μ).mark_dirty node_id },
                  Except.ok ())

/-- `Taffy::remove_child`: resolves both handles, detaches the edge by value
in the arena, and maps the detached index back to its handle (a panicking map
index). -/
def Taffy.remove_child {σ μ : Type} (t : Taffy σ μ) (parent : Node) (child : Node) :
    Option (Taffy σ μ × Except InvalidNode Node) :=
  match t.find_node parent with
  | Except.error e => some (t, Except.error e)
  | Except.ok node_id =>
    match t.find_node child with
    | Except.error e => some (t, Except.error e)
    | Except.ok child_id =>
      match t.forest.remove_child node_id child_id with
      | none => none
      | some (f1, prev_id) =>
        match t.ids_to_nodes.get prev_id with
        | none => none
        | some prev => some ({ t with forest := f1 }, Except.ok prev)

/-- `Taffy::remove_child_at_index`: resolves the parent (wrapping the failure
in `InvalidParentNode`), checks the index against the child count, then
detaches by position. -/
def Taffy.remove_child_at_index {σ μ : Type} (t : Taffy σ μ) (parent : Node)
    (child_index : Nat) : Option (Taffy σ μ × Except InvalidChild Node) :=
  match t.find_node parent with
  | Except.error e => some (t, Except.error (InvalidChild.InvalidParentNode e.node))
  | Except.ok node_id =>
    match t.forest.children[node_id]? with
    | none => none
    | some kids =>
      if child_index ≥ kids.length then
        some (t, Except.error (InvalidChild.ChildIndexOutOfBounds parent child_index kids.length))
      else
        match t.forest.remove_child_at_index node_id child_index with
        | none => none
        | some (f1, prev_id) =>
          match t.ids_to_nodes.get prev_id with
          | none => none
          | some prev => some ({ t with forest := f1 }, Except.ok prev)

/-- `Taffy::replace_child_at_index`: resolves the parent (as
`InvalidParentNode`) and the new child (as `InvalidChildNode`), checks the
index, attaches the new child's back-reference, overwrites the slot, retains
away the displaced occupant's back-references to the parent, marks the parent
dirty and returns the displaced handle. -/
def Taffy.replace_child_at_index {σ μ : Type} (t : Taffy σ μ) (parent : Node)
    (child_index : Nat) (new_child : Node) : Option (Taffy σ μ × Except InvalidChild Node) :=
  match t.find_node parent with
  | Except.error e => some (t, Except.error (InvalidChild.InvalidParentNode e.node))
  | Except.ok node_id =>
    match t.find_node new_child with
    | Except.error e => some (t, Except.error (InvalidChild.InvalidChildNode e.node))
    | Except.ok child_id =>
      match t.forest.children[node_id]? with
      | none => none
      | some kids =>
        if child_index ≥ kids.length then
          some (t, Except.error (InvalidChild.ChildIndexOutOfBounds parent child_index kids.length))
        else
          match modifyIdxP t.forest.parents child_id (· ++ [node_id]) with
          | none => none
          | some ps1 =>
            match kids[child_index]? with
            | none => none
            | some old_child =>
              match modifyIdxP ps1 old_child (·.filter (· ≠ node_id)) with
              | none => none
              | some ps2 =>
                let t1 : Taffy σ μ :=
                  { t with forest :=
                      ({ t.forest with
                         parents := ps2,
                         children := modifyIdx t.forest.children node_id
                           (fun l => modifyIdx l child_index (fun _ => child_id)) }
                        : Forest σ μ).mark_dirty node_id }
                match t1.ids_to_nodes.get old_child with
                | none => none
                | some oldh => some (t1, Except.ok oldh)

/-- `Taffy::child_at_index`: resolves the parent (as `InvalidParentNode`),
checks the index, and maps the stored child index back to its handle. -/
def Taffy.child_at_index {σ μ : Type} (t : Taffy σ μ) (parent : Node) (child_index : Nat) :
    Option (Except InvalidChild Node) :=
  match t.find_node parent with
  | Except.error e => some (Except.error (InvalidChild.InvalidParentNode e.node))
  | Except.ok id =>
    match t.forest.children[id]? with
    | none => none
    | some kids =>
      if child_index ≥ kids.length then
        some (Except.error (InvalidChild.ChildIndexOutOfBounds parent child_index kids.length))
      else
        match kids[child_index]? with
        | none => none
        | some cid =>
          match t.ids_to_nodes.get cid with
          | none => none
          | some n => some (Except.ok n)

/-- `Taffy::child_count`: resolves and returns the length of the child
list. -/
def Taffy.child_count {σ μ : Type} (t : Taffy σ μ) (parent : Node) :
    Option (Except InvalidNode Nat) :=
  match t.find_node parent with
  | Except.error e => some (Except.error e)
  | Except.ok id =>
    match t.forest.children[id]? with
    | none => none
    | some kids => some (Except.ok kids.length)

/-- `Taffy::children`: resolves and maps every stored child index back to its
handle, in order. -/
def Taffy.children {σ μ : Type} (t : Taffy σ μ) (parent : Node) :
    Option (Except InvalidNode (List Node)) :=
  match t.find_node parent with
  | Except.error e => some (Except.error e)
  | Except.ok id =>
    match t.forest.children[id]? with
    | none => none
    | some kids =>
      match collectO (fun c => t.ids_to_nodes.get c) kids with
      | none => none
      | some l => some (Except.ok l)

/-- `Taffy::set_style`: resolves, stores the style, marks dirty. -/
def Taffy.set_style {σ μ : Type} (t : Taffy σ μ) (node : Node) (style : σ) :
    Option (Taffy σ μ × Except InvalidNode Unit) :=
  match t.find_node node with
  | Except.error e => some (t, Except.error e)
  | Except.ok id =>
    match modifyIdxP t.forest.nodes id (fun nd => { nd with style := style }) with
    | none => none
    | some ns =>
      some ({ t with forest := ({ t.forest with nodes := ns } : Forest σ μ).mark_dirty id },
            Except.ok ())

/-- `Taffy::style`: resolves and reads the stored style. -/
def Taffy.style {σ μ : Type} (t : Taffy σ μ) (node : Node) : Option (Except InvalidNode σ) :=
  match t.find_node node with
  | Except.error e => some (Except.error e)
  | Except.ok id =>
    match t.forest.nodes[id]? with
    | none => none
    | some nd => some (Except.ok nd.style)

/-- `Taffy::layout`: resolves and reads the cached layout. -/
def Taffy.layout {σ μ : Type} (t : Taffy σ μ) (node : Node) : Option (Except InvalidNode Layout) :=
  match t.find_node node with
  | Except.error e => some (Except.error e)
  | Except.ok id =>
    match t.forest.nodes[id]? with
    | none => none
    | some nd => some (Except.ok nd.layout)

/-- `Taffy::mark_dirty`: resolves and delegates to the arena's propagating
mark. -/
def Taffy.mark_dirty {σ μ : Type} (t : Taffy σ μ) (node : Node) :
    Taffy σ μ × Except InvalidNode Unit :=
  match t.find_node node with
  | Except.error e => (t, Except.error e)
  | Except.ok id => ({ t with forest := t.forest.mark_dirty id }, Except.ok ())

/-- `Taffy::dirty`: resolves and reads the stored flag only. -/
def Taffy.dirty {σ μ : Type} (t : Taffy σ μ) (node : Node) : Option (Except InvalidNode Bool) :=
  match t.find_node node with
  | Except.error e => some (Except.error e)
  | Except.ok id =>
    match t.forest.nodes[id]? with
    | none => none
    | some nd => some (Except.ok nd.is_dirty)

/-- `Taffy::compute_layout`: resolves and delegates to the layout engine
rooted at the node.  The available-space argument only parameterizes the
external sizing mathematics (spec section 1) and does not influence this
layer, so it is not modelled. -/
def Taffy.compute_layout {σ μ : Type} (t : Taffy σ μ) (node : Node) :
    Taffy σ μ × Except InvalidNode Unit :=
  match t.find_node node with
  | Except.error e => (t, Except.error e)
  | Except.ok id => ({ t with forest := t.forest.compute_layout id }, Except.ok ())

/-- One mutating operation of the public facade, for trace-based claims. -/
inductive TOp (σ μ : Type) where
  | newLeaf (style : σ) (measure : μ)
  | newWithChildren (style : σ) (children : List Node)
  | remove (node : Node)
  | setMeasure (node : Node) (measure : Option μ)
  | addChild (parent : Node) (child : Node)
  | setChildren (parent : Node) (children : List Node)
  | removeChild (parent : Node) (child : Node)
  | removeChildAtIndex (parent : Node) (child_index : Nat)
  | replaceChildAtIndex (parent : Node) (child_index : Nat) (new_child : Node)
  | setStyle (node : Node) (style : σ)
  | markDirty (node : Node)
  | computeLayout (node : Node)
  | clearAll

/-- Applies one mutating operation; a returned error leaves the facade in the
state the operation returned, and `none` is a panic, which ends the trace. -/
def step {σ μ : Type} (t : Taffy σ μ) : TOp σ μ → Option (Taffy σ μ)
  | TOp.newLeaf s m => some (t.new_leaf s m).1
  | TOp.newWithChildren s cs => some (t.new_with_children s cs).1
  | TOp.remove n => (t.remove n).map Prod.fst
  | TOp.setMeasure n m => (t.set_measure n m).map Prod.fst
  | TOp.addChild p c => some (t.add_child p c).1
  | TOp.setChildren p cs => (t.set_children p cs).map Prod.fst
  | TOp.removeChild p c => (t.remove_child p c).map Prod.fst
  | TOp.removeChildAtIndex p i => (t.remove_child_at_index p i).map Prod.fst
  | TOp.replaceChildAtIndex p i c => (t.replace_child_at_index p i c).map Prod.fst
  | TOp.setStyle n s => (t.set_style n s).map Prod.fst
  | TOp.markDirty n => some (t.mark_dirty n).1
  | TOp.computeLayout n => some (t.compute_layout n).1
  | TOp.clearAll => some t.clear

/-- Runs a trace of mutating operations. -/
def exec {σ μ : Type} (t : Taffy σ μ) : List (TOp σ μ) → Option (Taffy σ μ)
  | [] => some t
  | op :: ops =>
    match step t op with
    | none => none
    | some t1 => exec t1 ops

/-- Whether an operation is a node creation or a `remove` (the operations
quantified over by the bijection-after-compaction claim). -/
def isCreateOrRemove {σ μ : Type} : TOp σ μ → Bool
  | TOp.newLeaf _ _ => true
  | TOp.newWithChildren _ _ => true
  | TOp.remove _ => true
  | _ => false

/-- The process: the process-wide `INSTANCE_ALLOCATOR` plus every `Taffy`
instance created so far. -/
structure World (σ μ : Type) where
  instance_allocator : Allocator
  instances : List (Taffy σ μ)

/-- A process-level operation: create an instance (`Taffy::with_capacity`,
which draws its id from the process-wide allocator) or apply a mutating
operation to one instance. -/
inductive WOp (σ μ : Type) where
  | newInstance (capacity : Nat)
  | instanceOp (idx : Nat) (op : TOp σ μ)

/-- Applies one process-level operation. -/
def wstep {σ μ : Type} (w : World σ μ) : WOp σ μ → Option (World σ μ)
  | WOp.newInstance c =>
    let (iid, a1) := w.instance_allocator.allocate
    some { instance_allocator := a1,
           instances := w.instances ++ [Taffy.with_capacity iid c] }
  | WOp.instanceOp idx op =>
    match w.instances[idx]? with
    | none => none
    | some t =>
      match step t op with
      | none => none
      | some t1 => some { w with instances := w.instances.set idx t1 }

/-- The process at start-up: the global instance counter at zero, no
instances. -/
def initWorld {σ μ : Type} : World σ μ :=
  { instance_allocator := Allocator.new, instances := [] }

/-- Runs a process-level trace. -/
def wexec {σ μ : Type} (w : World σ μ) : List (WOp σ μ) → Option (World σ μ)
  | [] => some w
  | op :: ops =>
    match wstep w op with
    | none => none
    | some w1 => wexec w1 ops

/-- The two maps agree: handle `h` maps to index `i` in the forward map
exactly when slot `i` maps back to `h` in the reverse map (spec invariant 1;
it makes each direction of the bimap a partial inverse of the other, so each
live handle resolves to exactly one slot and each slot carrying a reverse
entry resolves back to exactly one live handle). -/
def Agree {σ μ : Type} (t : Taffy σ μ) : Prop :=
  ∀ (h : Node) (i : NodeId), t.nodes_to_ids.get h = some i ↔ t.ids_to_nodes.get i = some h

/-- The reverse map is defined exactly on the occupied arena slots (spec
invariant 2). -/
def SlotDom {σ μ : Type} (t : Taffy σ μ) : Prop :=
  ∀ i : NodeId, (∃ h : Node, t.ids_to_nodes.get i = some h) ↔ i < t.forest.nodes.length

/-- Every live handle carries this instance's id and a local id already
issued by this instance's fetch-and-increment allocator. -/
def KeysOwn {σ μ : Type} (t : Taffy σ μ) : Prop :=
  ∀ (h : Node) (i : NodeId), t.nodes_to_ids.get h = some i →
    h.instanceId = t.id ∧ h.localId.val < t.allocator.last_id

/-- The three dense arrays of the arena stay parallel. -/
def LenOk {σ μ : Type} (t : Taffy σ μ) : Prop :=
  t.forest.children.length = t.forest.nodes.length ∧
  t.forest.parents.length = t.forest.nodes.length

/-- The state invariant of one `Taffy` instance. -/
def TaffyInv {σ μ : Type} (t : Taffy σ μ) : Prop :=
  Agree t ∧ SlotDom t ∧ KeysOwn t ∧ LenOk t

/-- Parent/child edges are symmetric (spec invariant 3): a slot is listed
among a parent's children exactly when the parent is listed among its
parents. -/
abbrev EdgeSym {σ μ : Type} (t : Taffy σ μ) : Prop :=
  ∀ p : NodeId, p < t.forest.nodes.length → ∀ c : NodeId, c < t.forest.nodes.length →
    (c ∈ t.forest.children[p]?.getD [] ↔ p ∈ t.forest.parents[c]?.getD [])

/-- A handle is dead for an instance: it does not resolve, and its local id
is in the already-issued range, so the fetch-and-increment allocator can
never issue it again. -/
def Dead {σ μ : Type} (t : Taffy σ μ) (h : Node) : Prop :=
  t.nodes_to_ids.get h = none ∧ h.localId.val < t.allocator.last_id

/-- Every fallible public operation, applied to the handle `h`, fails with
`InvalidNode h` (or, for the child-indexed operations, with
`InvalidParentNode h`) and leaves the instance untouched. -/
def opsReject {σ μ : Type} (t : Taffy σ μ) (h : Node) : Prop :=
  t.find_node h = Except.error { node := h } ∧
  t.style h = some (Except.error { node := h }) ∧
  t.layout h = some (Except.error { node := h }) ∧
  t.dirty h = some (Except.error { node := h }) ∧
  t.child_count h = some (Except.error { node := h }) ∧
  t.children h = some (Except.error { node := h }) ∧
  t.remove h = some (t, Except.error { node := h }) ∧
  t.mark_dirty h = (t, Except.error { node := h }) ∧
  t.compute_layout h = (t, Except.error { node := h }) ∧
  (∀ s : σ, t.set_style h s = some (t, Except.error { node := h })) ∧
  (∀ m : Option μ, t.set_measure h m = some (t, Except.error { node := h })) ∧
  (∀ c : Node, t.add_child h c = (t, Except.error { node := h })) ∧
  (∀ p pid, t.find_node p = Except.ok pid → t.add_child p h = (t, Except.error { node := h })) ∧
  (∀ cs : List Node, t.set_children h cs = some (t, Except.error { node := h })) ∧
  (∀ c : Node, t.remove_child h c = some (t, Except.error { node := h })) ∧
  (∀ p pid, t.find_node p = Except.ok pid →
    t.remove_child p h = some (t, Except.error { node := h })) ∧
  (∀ s : σ, ∀ cs : List Node, h ∈ cs →
    ∃ c0 : Node, (t.new_with_children s cs).2 = Except.error { node := c0 } ∧
      t.find_node c0 = Except.error { node := c0 }) ∧
  (∀ i : Nat, t.remove_child_at_index h i =
    some (t, Except.error (InvalidChild.InvalidParentNode h))) ∧
  (∀ (i : Nat) (c : Node), t.replace_child_at_index h i c =
    some (t, Except.error (InvalidChild.InvalidParentNode h))) ∧
  (∀ i : Nat, t.child_at_index h i = some (Except.error (InvalidChild.InvalidParentNode h)))


/-- The parts of an instance that the structural-edge, style, measure and
dirty operations never touch: both maps, the instance id and the local-id
allocator. -/
def SameShell {σ μ : Type} (t t' : Taffy σ μ) : Prop :=
  t'.nodes_to_ids = t.nodes_to_ids ∧ t'.ids_to_nodes = t.ids_to_nodes ∧
  t'.id = t.id ∧ t'.allocator = t.allocator

/-- The process-level invariant: every instance satisfies its own invariant,
every instance id was issued by the process-wide allocator, and — because
that allocator is a monotone fetch-and-increment — all instance ids are
pairwise distinct. -/
def WInv {σ μ : Type} (w : World σ μ) : Prop :=
  (∀ t ∈ w.instances, TaffyInv t ∧ t.id.val < w.instance_allocator.last_id) ∧
  (w.instances.map (fun t => t.id)).Pairwise (fun a b => a ≠ b)

/-- Shorthand for a concrete handle value. -/
def mkNode (a b : Nat) : Node :=
  { instanceId := { val := a }, localId := { val := b } }

/-- A fresh demo instance. -/
def demoT0 : Taffy Unit Unit := Taffy.with_capacity { val := 0 } 16

/-- Demo trace: two leaves (handles `mkNode 0 0`, `mkNode 0 1`). -/
def twoLeafOps : List (TOp Unit Unit) := [TOp.newLeaf () (), TOp.newLeaf () ()]

/-- Demo instance with two leaves. -/
def twoLeafT : Taffy Unit Unit := (exec demoT0 twoLeafOps).getD demoT0

/-- Demo trace: three leaves, then a parent wired to the first two. -/
def familyOps : List (TOp Unit Unit) :=
  [TOp.newLeaf () (), TOp.newLeaf () (), TOp.newLeaf () (),
   TOp.newWithChildren () [mkNode 0 0, mkNode 0 1]]

/-- Demo instance with a parent (handle `mkNode 0 3`, slot 3) whose children
are slots 0 and 1. -/
def familyT : Taffy Unit Unit := (exec demoT0 familyOps).getD demoT0

/-- States of the same-child replacement scenario. -/
def c2_base : Taffy Unit Unit :=
  (exec demoT0 [TOp.newLeaf () (), TOp.newLeaf () (),
    TOp.setChildren (mkNode 0 1) [mkNode 0 0]]).getD demoT0

/-- The state after replacing the parent's only child by itself. -/
def c2_after : Taffy Unit Unit :=
  ((c2_base.replace_child_at_index (mkNode 0 1) 0 (mkNode 0 0)).map Prod.fst).getD c2_base

/-- Demo process trace: two instances, one leaf in the first. -/
def c4_ops : List (WOp Unit Unit) :=
  [WOp.newInstance 16, WOp.newInstance 16, WOp.instanceOp 0 (TOp.newLeaf () ())]

/-- The demo process. -/
def c4_world : World Unit Unit := (wexec initWorld c4_ops).getD initWorld

/-- The first demo instance (id 0, holding one leaf). -/
def c4_A : Taffy Unit Unit := c4_world.instances[0]?.getD demoT0

/-- The second demo instance (id 1, empty). -/
def c4_B : Taffy Unit Unit := c4_world.instances[1]?.getD demoT0

/-- The state of the no-reuse scenario after removing the first leaf (whose
slot is immediately recycled for the relocated record). -/
def c5_t1 : Taffy Unit Unit := ((twoLeafT.remove (mkNode 0 0)).map Prod.fst).getD twoLeafT

/-- Continuation of the no-reuse scenario: a new leaf is created, reusing
the arena slot vacated by the removal. -/
def c5_t2 : Taffy Unit Unit := (exec c5_t1 [TOp.newLeaf () ()]).getD c5_t1

deriving instance DecidableEq for Except

theorem Map.get_remove {α β : Type} [DecidableEq α] (m : Map α β) (k k' : α) :
    Map.get (Map.remove m k) k' = if k' = k then none else Map.get m k' := by
  induction m with
  | nil => simp [Map.remove, Map.get]
  | cons p m ih =>
    obtain ⟨a, b⟩ := p
    simp only [Map.remove]
    split
    · next hak =>
      subst hak
      rw [ih]
      by_cases hk : k' = a <;> simp [Map.get, hk]
    · next hak =>
      simp only [Map.get]
      by_cases hka : k' = a
      · subst hka
        simp [hak]
      · rw [if_neg hka, ih]
        by_cases hk : k' = k
        · simp [hk]
        · simp [hk, hka]

theorem Map.get_insert {α β : Type} [DecidableEq α] (m : Map α β) (k : α) (v : β) (k' : α) :
    Map.get (m.insert k v) k' = if k' = k then some v else Map.get m k' := by
  by_cases hk : k' = k <;> simp [Map.insert, Map.get, Map.get_remove, hk]

theorem length_modifyIdx {α : Type} (l : List α) (i : Nat) (f : α → α) :
    (modifyIdx l i f).length = l.length := by
  induction l generalizing i with
  | nil => rfl
  | cons a l ih => cases i <;> simp [modifyIdx, ih]

theorem getElem?_modifyIdx {α : Type} (l : List α) (i : Nat) (f : α → α) (j : Nat) :
    (modifyIdx l i f)[j]? = if j = i then l[j]?.map f else l[j]? := by
  induction l generalizing i j with
  | nil => simp [modifyIdx]
  | cons a l ih =>
    cases i <;> cases j <;> simp [modifyIdx, ih]

theorem modifyIdxP_some_of_lt {α : Type} {l : List α} {i : Nat} (f : α → α)
    (h : i < l.length) : modifyIdxP l i f = some (modifyIdx l i f) := by
  simp [modifyIdxP, h]

theorem of_modifyIdxP_eq_some {α : Type} {l l' : List α} {i : Nat} {f : α → α}
    (h : modifyIdxP l i f = some l') : i < l.length ∧ l' = modifyIdx l i f := by
  by_cases hi : i < l.length <;> simp_all [modifyIdxP]

theorem foldlM_modifyIdxP_length {β : Type} (F : NodeId → β → β) :
    ∀ (cs : List NodeId) (ps0 ps1 : List β),
      cs.foldlM (fun ps c => modifyIdxP ps c (F c)) ps0 = some ps1 →
      ps1.length = ps0.length := by
  intro cs
  induction cs with
  | nil => intro ps0 ps1 h; simp_all
  | cons c cs ih =>
    intro ps0 ps1 h
    simp only [List.foldlM_cons] at h
    obtain ⟨ps2, hps2, hrest⟩ := Option.bind_eq_some.mp h
    have h1 := of_modifyIdxP_eq_some hps2
    have h2 := ih ps2 ps1 hrest
    rw [h2, h1.2, length_modifyIdx]

theorem foldlM_modifyIdxP_isSome {β : Type} (F : NodeId → β → β) :
    ∀ (cs : List NodeId) (ps0 : List β), (∀ c ∈ cs, c < ps0.length) →
      ∃ ps1, cs.foldlM (fun ps c => modifyIdxP ps c (F c)) ps0 = some ps1 := by
  intro cs
  induction cs with
  | nil => intro ps0 _; exact ⟨ps0, rfl⟩
  | cons c cs ih =>
    intro ps0 hin
    have hc : c < ps0.length := hin c (List.mem_cons_self c cs)
    obtain ⟨ps1, hps1⟩ := ih (modifyIdx ps0 c (F c)) (by
      intro x hx
      rw [length_modifyIdx]
      exact hin x (List.mem_cons_of_mem c hx))
    refine ⟨ps1, ?_⟩
    simp only [List.foldlM_cons, modifyIdxP_some_of_lt _ hc, Option.bind_some]
    exact hps1

theorem collectE_ok_forall2 {α β ε : Type} (f : α → Except ε β) :
    ∀ {l : List α} {l' : List β},
      collectE f l = Except.ok l' ↔ List.Forall₂ (fun a b => f a = Except.ok b) l l' := by
  intro l
  induction l with
  | nil =>
    intro l'
    constructor
    · intro h
      cases l' <;> simp_all [collectE]
    · intro h; cases h; rfl
  | cons a l ih =>
    intro l'
    constructor
    · intro h
      simp only [collectE] at h
      cases hfa : f a with
      | error e => rw [hfa] at h; cases h
      | ok b =>
        rw [hfa] at h
        cases hrest : collectE f l with
        | error e => rw [hrest] at h; cases h
        | ok bs =>
          rw [hrest] at h
          cases h
          exact List.Forall₂.cons hfa (ih.mp hrest)
    · intro h
      cases h with
      | cons hab hrest =>
        simp only [collectE, hab, ih.mpr hrest]

theorem collectE_error_mem {α β ε : Type} (f : α → Except ε β) :
    ∀ {l : List α} {e : ε}, collectE f l = Except.error e → ∃ a ∈ l, f a = Except.error e := by
  intro l
  induction l with
  | nil => intro e h; simp [collectE] at h
  | cons a l ih =>
    intro e h
    simp only [collectE] at h
    cases hfa : f a with
    | error e2 =>
      rw [hfa] at h
      cases h
      exact ⟨a, List.mem_cons_self a l, hfa⟩
    | ok b =>
      rw [hfa] at h
      cases hrest : collectE f l with
      | error e2 =>
        rw [hrest] at h
        cases h
        obtain ⟨x, hx, hfx⟩ := ih hrest
        exact ⟨x, List.mem_cons_of_mem a hx, hfx⟩
      | ok bs => rw [hrest] at h; cases h

theorem collectE_error_of_mem {α β ε : Type} (f : α → Except ε β) :
    ∀ {l : List α} {a : α} {e : ε}, a ∈ l → f a = Except.error e →
      ∃ e2, collectE f l = Except.error e2 ∧ ∃ a2 ∈ l, f a2 = Except.error e2 := by
  intro l
  induction l with
  | nil => intro a e ha _; cases ha
  | cons x l ih =>
    intro a e ha hfa
    simp only [collectE]
    cases hfx : f x with
    | error e2 => exact ⟨e2, rfl, x, List.mem_cons_self x l, hfx⟩
    | ok b =>
      have hal : a ∈ l := by
        cases List.mem_cons.mp ha with
        | inl h => subst h; rw [hfa] at hfx; cases hfx
        | inr h => exact h
      obtain ⟨e2, he2, a2, ha2, hfa2⟩ := ih hal hfa
      rw [he2]
      exact ⟨e2, rfl, a2, List.mem_cons_of_mem x ha2, hfa2⟩

theorem collectO_some_forall2 {α β : Type} (f : α → Option β) :
    ∀ {l : List α} {l' : List β},
      collectO f l = some l' ↔ List.Forall₂ (fun a b => f a = some b) l l' := by
  intro l
  induction l with
  | nil =>
    intro l'
    constructor
    · intro h; cases l' <;> simp_all [collectO]
    · intro h; cases h; rfl
  | cons a l ih =>
    intro l'
    constructor
    · intro h
      simp only [collectO] at h
      cases hfa : f a with
      | none => rw [hfa] at h; cases h
      | some b =>
        rw [hfa] at h
        cases hrest : collectO f l with
        | none => rw [hrest] at h; cases h
        | some bs =>
          rw [hrest] at h
          cases h
          exact List.Forall₂.cons hfa (ih.mp hrest)
    · intro h
      cases h with
      | cons hab hrest => simp only [collectO, hab, ih.mpr hrest]

theorem forall2_getElem? {α β : Type} {R : α → β → Prop} :
    ∀ {l : List α} {l' : List β}, List.Forall₂ R l l' →
      ∀ (k : Nat) (b : β), l'[k]? = some b → ∃ a, l[k]? = some a ∧ R a b := by
  intro l l' h
  induction h with
  | nil => intro k b hb; cases k <;> cases hb
  | cons hab hrest ih =>
    intro k b hb
    cases k with
    | zero =>
      rw [List.getElem?_cons_zero] at hb
      cases hb
      exact ⟨_, List.getElem?_cons_zero, hab⟩
    | succ k =>
      rw [List.getElem?_cons_succ] at hb
      obtain ⟨a, ha, hr⟩ := ih k b hb
      exact ⟨a, by rw [List.getElem?_cons_succ]; exact ha, hr⟩

theorem forall2_getElem?_left {α β : Type} {R : α → β → Prop} :
    ∀ {l : List α} {l' : List β}, List.Forall₂ R l l' →
      ∀ (k : Nat) (a : α), l[k]? = some a → ∃ b, l'[k]? = some b ∧ R a b := by
  intro l l' h
  induction h with
  | nil => intro k a ha; cases k <;> cases ha
  | cons hab hrest ih =>
    intro k a ha
    cases k with
    | zero =>
      rw [List.getElem?_cons_zero] at ha
      cases ha
      exact ⟨_, List.getElem?_cons_zero, hab⟩
    | succ k =>
      rw [List.getElem?_cons_succ] at ha
      obtain ⟨b, hb, hr⟩ := ih k a ha
      exact ⟨b, by rw [List.getElem?_cons_succ]; exact hb, hr⟩

theorem length_setDirty {σ μ : Type} (ids : List NodeId) :
    ∀ (ns : List (NodeData σ μ)) (b : Bool), (setDirty ns ids b).length = ns.length := by
  induction ids with
  | nil => intro ns b; rfl
  | cons i ids ih =>
    intro ns b
    simp only [setDirty, List.foldl_cons] at *
    rw [ih, length_modifyIdx]

theorem getElem?_setDirty_not_mem {σ μ : Type} (ids : List NodeId) :
    ∀ (ns : List (NodeData σ μ)) (b : Bool) (i : NodeId), i ∉ ids →
      (setDirty ns ids b)[i]? = ns[i]? := by
  induction ids with
  | nil => intro ns b i _; rfl
  | cons j ids ih =>
    intro ns b i hi
    have hcons : setDirty ns (j :: ids) b
        = setDirty (modifyIdx ns j (fun d => { d with is_dirty := b })) ids b := rfl
    rw [hcons, ih _ b i (fun h => hi (List.mem_cons_of_mem j h)), getElem?_modifyIdx,
        if_neg (fun h : i = j => hi (by rw [h]; exact List.mem_cons_self j ids))]

theorem getElem?_setDirty_mem {σ μ : Type} (ids : List NodeId) :
    ∀ (ns : List (NodeData σ μ)) (b : Bool) (i : NodeId), i ∈ ids →
      (setDirty ns ids b)[i]? =
        ns[i]?.map (fun d => { d with is_dirty := b }) := by
  induction ids with
  | nil => intro ns b i hi; cases hi
  | cons j ids ih =>
    intro ns b i hi
    have hcons : setDirty ns (j :: ids) b
        = setDirty (modifyIdx ns j (fun d => { d with is_dirty := b })) ids b := rfl
    rw [hcons]
    by_cases hmem : i ∈ ids
    · rw [ih _ b i hmem, getElem?_modifyIdx]
      by_cases hij : i = j
      · rw [if_pos hij, Option.map_map]
        cases ns[i]? <;> rfl
      · rw [if_neg hij]
    · have hij : i = j := by
        cases List.mem_cons.mp hi with
        | inl h => exact h
        | inr h => exact absurd h hmem
      subst hij
      rw [getElem?_setDirty_not_mem ids _ b i hmem, getElem?_modifyIdx, if_pos rfl]

theorem mem_foldl_append {α β : Type} (h : β → List α) :
    ∀ (l : List β) (init : List α) (a : α), a ∈ init →
      a ∈ List.foldl (fun acc i => acc ++ h i) init l := by
  intro l
  induction l with
  | nil => intro init a ha; exact ha
  | cons x l ih =>
    intro init a ha
    exact ih (init ++ h x) a (List.mem_append_left _ ha)

theorem mem_adjUnion_self {g : List (List NodeId)} {s : List NodeId} {a : NodeId}
    (ha : a ∈ s) : a ∈ adjUnion g s :=
  mem_foldl_append _ s s a ha

theorem mem_reach_self {g : List (List NodeId)} :
    ∀ (n : Nat) {s : List NodeId} {a : NodeId}, a ∈ s → a ∈ reach g n s := by
  intro n
  induction n with
  | zero => intro s a ha; exact ha
  | succ n ih => intro s a ha; exact ih (mem_adjUnion_self ha)

theorem find_node_ok_iff {σ μ : Type} (t : Taffy σ μ) (h : Node) (i : NodeId) :
    t.find_node h = Except.ok i ↔ Map.get t.nodes_to_ids h = some i := by
  unfold Taffy.find_node
  cases hg : Map.get t.nodes_to_ids h <;> simp [hg]

theorem find_node_error_of_get_none {σ μ : Type} (t : Taffy σ μ) (h : Node)
    (hg : Map.get t.nodes_to_ids h = none) : t.find_node h = Except.error { node := h } := by
  unfold Taffy.find_node
  rw [hg]

theorem get_none_of_find_node_error {σ μ : Type} (t : Taffy σ μ) (h : Node) (e : InvalidNode)
    (he : t.find_node h = Except.error e) :
    Map.get t.nodes_to_ids h = none ∧ e = { node := h } := by
  unfold Taffy.find_node at he
  cases hg : Map.get t.nodes_to_ids h <;> rw [hg] at he <;> simp_all

theorem foldl_modifyIdx_length {β : Type} (F : NodeId → β → β) :
    ∀ (cs : List NodeId) (ps : List β),
      (cs.foldl (fun ps c => modifyIdx ps c (F c)) ps).length = ps.length := by
  intro cs
  induction cs with
  | nil => intro ps; rfl
  | cons c cs ih =>
    intro ps
    rw [List.foldl_cons, ih, length_modifyIdx]

theorem mark_dirty_nodes_length {σ μ : Type} (f : Forest σ μ) (id : NodeId) :
    (f.mark_dirty id).nodes.length = f.nodes.length :=
  length_setDirty _ _ _

theorem mark_dirty_children_eq {σ μ : Type} (f : Forest σ μ) (id : NodeId) :
    (f.mark_dirty id).children = f.children := rfl

theorem mark_dirty_parents_eq {σ μ : Type} (f : Forest σ μ) (id : NodeId) :
    (f.mark_dirty id).parents = f.parents := rfl

theorem compute_layout_nodes_length {σ μ : Type} (f : Forest σ μ) (id : NodeId) :
    (f.compute_layout id).nodes.length = f.nodes.length :=
  length_setDirty _ _ _

theorem compute_layout_children_eq {σ μ : Type} (f : Forest σ μ) (id : NodeId) :
    (f.compute_layout id).children = f.children := rfl

theorem compute_layout_parents_eq {σ μ : Type} (f : Forest σ μ) (id : NodeId) :
    (f.compute_layout id).parents = f.parents := rfl

/-- Re-establishes the invariant for a state whose bimap, identity and
allocator agree with an invariant state and whose arena kept parallel array
lengths. -/
theorem inv_of_eq_parts {σ μ : Type} {t t' : Taffy σ μ} (hInv : TaffyInv t)
    (hF : t'.nodes_to_ids = t.nodes_to_ids) (hR : t'.ids_to_nodes = t.ids_to_nodes)
    (hid : t'.id = t.id) (halloc : t'.allocator = t.allocator)
    (hn : t'.forest.nodes.length = t.forest.nodes.length)
    (hc : t'.forest.children.length = t'.forest.nodes.length)
    (hp : t'.forest.parents.length = t'.forest.nodes.length) : TaffyInv t' := by
  obtain ⟨hAgree, hSlot, hKeys, hLen⟩ := hInv
  refine ⟨?_, ?_, ?_, hc, hp⟩
  · intro g j
    rw [hF, hR]
    exact hAgree g j
  · intro j
    rw [hR, hn]
    exact hSlot j
  · intro g j hg
    rw [hF] at hg
    rw [hid, halloc]
    exact hKeys g j hg

/-- Establishes the invariant after registering a fresh handle for a freshly
appended arena slot. -/
theorem inv_insert_fresh {σ μ : Type} {t t' : Taffy σ μ} {n : Node} (hInv : TaffyInv t)
    (hid : t'.id = t.id)
    (halloc : t'.allocator.last_id = t.allocator.last_id + 1)
    (hF : t'.nodes_to_ids = t.nodes_to_ids.insert n t.forest.nodes.length)
    (hR : t'.ids_to_nodes = t.ids_to_nodes.insert t.forest.nodes.length n)
    (hn1 : n.instanceId = t.id) (hn2 : n.localId.val = t.allocator.last_id)
    (hlen : t'.forest.nodes.length = t.forest.nodes.length + 1)
    (hc : t'.forest.children.length = t'.forest.nodes.length)
    (hp : t'.forest.parents.length = t'.forest.nodes.length) : TaffyInv t' := by
  obtain ⟨hAgree, hSlot, hKeys, hLen⟩ := hInv
  have hFn : Map.get t.nodes_to_ids n = none := by
    cases hFn : Map.get t.nodes_to_ids n with
    | none => rfl
    | some j =>
      have := (hKeys n j hFn).2
      rw [hn2] at this
      exact absurd this (lt_irrefl _)
  have hRlen : Map.get t.ids_to_nodes t.forest.nodes.length = none := by
    cases hRl : Map.get t.ids_to_nodes t.forest.nodes.length with
    | none => rfl
    | some g =>
      have : t.forest.nodes.length < t.forest.nodes.length := (hSlot _).mp ⟨g, hRl⟩
      exact absurd this (lt_irrefl _)
  refine ⟨?_, ?_, ?_, hc, hp⟩
  · intro g j
    rw [hF, hR, Map.get_insert, Map.get_insert]
    by_cases hg : g = n <;> by_cases hj : j = t.forest.nodes.length
    · rw [if_pos hg, if_pos hj]
      constructor
      · intro _; rw [hg]
      · intro _; rw [hj]
    · rw [if_pos hg, if_neg hj]
      constructor
      · intro hsome
        exact absurd (Option.some.inj hsome).symm hj
      · intro hsome
        have h2 := (hAgree g j).mpr hsome
        rw [hg, hFn] at h2
        cases h2
    · rw [if_neg hg, if_pos hj]
      constructor
      · intro hsome
        have h2 := (hAgree g j).mp hsome
        rw [hj, hRlen] at h2
        cases h2
      · intro hsome
        exact absurd (Option.some.inj hsome).symm hg
    · rw [if_neg hg, if_neg hj]
      exact hAgree g j
  · intro j
    rw [hR, hlen, Map.get_insert]
    by_cases hj : j = t.forest.nodes.length
    · rw [if_pos hj, hj]
      exact ⟨fun _ => Nat.lt_succ_self _, fun _ => ⟨n, rfl⟩⟩
    · rw [if_neg hj, hSlot j]
      constructor
      · intro h2
        exact Nat.lt_succ_of_lt h2
      · intro h2
        exact Nat.lt_of_le_of_ne (Nat.le_of_lt_succ h2) hj
  · intro g j hg
    rw [hF, Map.get_insert] at hg
    by_cases hgn : g = n
    · rw [hid, halloc, hgn]
      refine ⟨hn1, ?_⟩
      rw [hn2]
      exact Nat.lt_succ_self _
    · rw [if_neg hgn] at hg
      have h2 := hKeys g j hg
      rw [hid, halloc]
      exact ⟨h2.1, Nat.lt_succ_of_lt h2.2⟩

theorem inv_of_shell {σ μ : Type} {t t' : Taffy σ μ} (hInv : TaffyInv t) (hs : SameShell t t')
    (hn : t'.forest.nodes.length = t.forest.nodes.length)
    (hc : t'.forest.children.length = t'.forest.nodes.length)
    (hp : t'.forest.parents.length = t'.forest.nodes.length) : TaffyInv t' :=
  inv_of_eq_parts hInv hs.1 hs.2.1 hs.2.2.1 hs.2.2.2 hn hc hp

theorem lenOk_of_inv {σ μ : Type} {t : Taffy σ μ} (hInv : TaffyInv t) : LenOk t :=
  hInv.2.2.2

/-- Unfolded form of `Taffy::new_leaf`: the fresh handle pairs the instance
id with the next local id, and the bimap entry points at the appended arena
slot. -/
theorem new_leaf_eq {σ μ : Type} (t : Taffy σ μ) (s : σ) (m : μ) :
    t.new_leaf s m =
      ({ id := t.id,
         allocator := { last_id := t.allocator.last_id + 1 },
         nodes_to_ids := t.nodes_to_ids.insert
           { instanceId := t.id, localId := { val := t.allocator.last_id } }
           t.forest.nodes.length,
         ids_to_nodes := t.ids_to_nodes.insert t.forest.nodes.length
           { instanceId := t.id, localId := { val := t.allocator.last_id } },
         forest := { nodes := t.forest.nodes ++
                       [{ style := s, measure := some m, layout := {}, is_dirty := true }],
                     children := t.forest.children ++ [[]],
                     parents := t.forest.parents ++ [[]] } },
       Except.ok { instanceId := t.id, localId := { val := t.allocator.last_id } }) := rfl

theorem new_leaf_inv {σ μ : Type} {t : Taffy σ μ} (hInv : TaffyInv t) (s : σ) (m : μ) :
    TaffyInv (t.new_leaf s m).1 := by
  rw [new_leaf_eq]
  exact inv_insert_fresh hInv rfl rfl rfl rfl rfl rfl
    (by simp) (by simp [lenOk_of_inv hInv |>.1]) (by simp [lenOk_of_inv hInv |>.2])

/-- Resolution ignores the allocator field. -/
theorem find_node_with_allocator {σ μ : Type} (t : Taffy σ μ) (a : Allocator) :
    Taffy.find_node ({ t with allocator := a } : Taffy σ μ) = Taffy.find_node t := rfl

/-- Unfolded form of `Taffy::new_with_children` when some child fails to
resolve: only the allocator has been bumped. -/
theorem new_with_children_error_eq {σ μ : Type} {t : Taffy σ μ} {s : σ} {cs : List Node}
    {e : InvalidNode} (h : collectE t.find_node cs = Except.error e) :
    t.new_with_children s cs =
      (({ t with allocator := { last_id := t.allocator.last_id + 1 } } : Taffy σ μ),
       Except.error e) := by
  unfold Taffy.new_with_children Taffy.allocate_node Allocator.allocate
  dsimp only
  rw [find_node_with_allocator, h]

/-- Unfolded form of `Taffy::new_with_children` when every child resolves. -/
theorem new_with_children_ok_eq {σ μ : Type} {t : Taffy σ μ} {s : σ} {cs : List Node}
    {cids : List NodeId} (h : collectE t.find_node cs = Except.ok cids) :
    t.new_with_children s cs =
      ({ id := t.id,
         allocator := { last_id := t.allocator.last_id + 1 },
         nodes_to_ids := t.nodes_to_ids.insert
           { instanceId := t.id, localId := { val := t.allocator.last_id } }
           t.forest.nodes.length,
         ids_to_nodes := t.ids_to_nodes.insert t.forest.nodes.length
           { instanceId := t.id, localId := { val := t.allocator.last_id } },
         forest := (t.forest.new_with_children s cids).1 },
       Except.ok { instanceId := t.id, localId := { val := t.allocator.last_id } }) := by
  unfold Taffy.new_with_children Taffy.allocate_node Allocator.allocate
  dsimp only
  rw [find_node_with_allocator, h]
  rfl

theorem new_with_children_forest_lengths {σ μ : Type} (f : Forest σ μ) (s : σ)
    (cids : List NodeId) :
    (f.new_with_children s cids).1.nodes.length = f.nodes.length + 1 ∧
    (f.new_with_children s cids).1.children.length = f.children.length + 1 ∧
    (f.new_with_children s cids).1.parents.length = f.parents.length + 1 := by
  unfold Forest.new_with_children
  refine ⟨by simp, by simp, ?_⟩
  rw [foldl_modifyIdx_length (fun _ => (· ++ [f.nodes.length]))]
  simp

theorem new_with_children_inv {σ μ : Type} {t : Taffy σ μ} (hInv : TaffyInv t) (s : σ)
    (cs : List Node) : TaffyInv (t.new_with_children s cs).1 := by
  cases hcol : collectE t.find_node cs with
  | error e =>
    rw [new_with_children_error_eq hcol]
    obtain ⟨hAgree, hSlot, hKeys, hLen⟩ := hInv
    refine ⟨hAgree, hSlot, ?_, hLen⟩
    intro g j hg
    have h2 := hKeys g j hg
    exact ⟨h2.1, Nat.lt_succ_of_lt h2.2⟩
  | ok cids =>
    rw [new_with_children_ok_eq hcol]
    have hlens := new_with_children_forest_lengths t.forest s cids
    exact inv_insert_fresh hInv rfl rfl rfl rfl rfl rfl
      hlens.1
      (by rw [hlens.2.1, hlens.1, lenOk_of_inv hInv |>.1])
      (by rw [hlens.2.2, hlens.1, lenOk_of_inv hInv |>.2])

theorem clear_inv {σ μ : Type} (t : Taffy σ μ) :
    TaffyInv t.clear ∧ t.clear.id = t.id ∧ t.clear.allocator = t.allocator ∧
    t.clear.nodes_to_ids = [] := by
  refine ⟨⟨?_, ?_, ?_, rfl, rfl⟩, rfl, rfl, rfl⟩
  · intro g j
    constructor
    · intro hg; cases hg
    · intro hg; cases hg
  · intro j
    constructor
    · intro ⟨g, hg⟩; cases hg
    · intro hj; cases hj
  · intro g j hg
    cases hg

/-- Detailed behaviour of `Taffy::remove` on a live handle, under the
invariant: it succeeds (never panics), erases the handle, and either simply
pops the last slot (when the handle lived there) or relocates the record of
the final slot, rewriting exactly the one bimap entry of the relocated
node. -/
theorem remove_spec {σ μ : Type} {t : Taffy σ μ} {h : Node} {i : NodeId}
    (hInv : TaffyInv t) (hget : Map.get t.nodes_to_ids h = some i) :
    ∃ t', t.remove h = some (t', Except.ok i) ∧ TaffyInv t' ∧
      t'.id = t.id ∧ t'.allocator = t.allocator ∧
      t'.forest.nodes.length = t.forest.nodes.length - 1 ∧
      Map.get t'.nodes_to_ids h = none ∧
      (i + 1 = t.forest.nodes.length →
        ∀ g, g ≠ h → Map.get t'.nodes_to_ids g = Map.get t.nodes_to_ids g) ∧
      (i + 1 ≠ t.forest.nodes.length →
        ∃ nw, Map.get t.ids_to_nodes (t.forest.nodes.length - 1) = some nw ∧ nw ≠ h ∧
          Map.get t'.nodes_to_ids nw = some i ∧
          (∀ g, g ≠ h → g ≠ nw → Map.get t'.nodes_to_ids g = Map.get t.nodes_to_ids g) ∧
          (∀ j, Map.get t'.ids_to_nodes j =
            if j = i then some nw
            else if j = t.forest.nodes.length - 1 then none
            else Map.get t.ids_to_nodes j)) := by
  obtain ⟨hAgree, hSlot, hKeys, hLen⟩ := hInv
  have hfind : t.find_node h = Except.ok i := (find_node_ok_iff t h i).mpr hget
  have hRi : Map.get t.ids_to_nodes i = some h := (hAgree h i).mp hget
  have hilen : i < t.forest.nodes.length := (hSlot i).mp ⟨h, hRi⟩
  have hpos : 0 < t.forest.nodes.length := Nat.lt_of_le_of_lt (Nat.zero_le i) hilen
  by_cases hlast : i = t.forest.nodes.length - 1
  · -- the handle occupied the final slot: no relocation
    have hsucc : i + 1 = t.forest.nodes.length := by
      rw [hlast]
      exact Nat.succ_pred_eq_of_pos hpos
    have hrem : t.remove h =
        some (({ t with
                  nodes_to_ids := t.nodes_to_ids.remove h,
                  ids_to_nodes := t.ids_to_nodes.remove i,
                  forest := { nodes := t.forest.nodes.take (t.forest.nodes.length - 1),
                              children := t.forest.children.take (t.forest.nodes.length - 1),
                              parents := t.forest.parents.take (t.forest.nodes.length - 1) } }
                : Taffy σ μ),
              Except.ok i) := by
      unfold Taffy.remove
      rw [hfind]
      dsimp only
      unfold Forest.swap_remove
      rw [if_neg (Nat.not_lt.mpr hilen)]
      dsimp only
      rw [if_pos hlast]
    refine ⟨_, hrem, ?_, rfl, rfl, ?_, ?_, ?_, ?_⟩
    · -- invariant after the pop
      refine ⟨?_, ?_, ?_, ?_, ?_⟩
      · intro g j
        rw [Map.get_remove, Map.get_remove]
        by_cases hg : g = h <;> by_cases hj : j = i
        · rw [if_pos hg, if_pos hj]
          constructor
          · intro hs; cases hs
          · intro hs; cases hs
        · rw [if_pos hg, if_neg hj]
          constructor
          · intro hs; cases hs
          · intro hs
            have h2 := (hAgree g j).mpr hs
            rw [hg, hget] at h2
            exact absurd (Option.some.inj h2) (fun he => hj he.symm)
        · rw [if_neg hg, if_pos hj]
          constructor
          · intro hs
            have h2 := (hAgree g j).mp hs
            rw [hj, hRi] at h2
            exact absurd (Option.some.inj h2).symm hg
          · intro hs; cases hs
        · rw [if_neg hg, if_neg hj]
          exact hAgree g j
      · intro j
        rw [Map.get_remove]
        have hnlen : (t.forest.nodes.take (t.forest.nodes.length - 1)).length
            = t.forest.nodes.length - 1 := by
          rw [List.length_take]
          exact Nat.min_eq_left (Nat.sub_le _ _)
        dsimp only
        rw [hnlen]
        by_cases hj : j = i
        · rw [if_pos hj, hj, hlast]
          constructor
          · intro ⟨g, hg⟩; cases hg
          · intro h2; exact absurd h2 (lt_irrefl _)
        · rw [if_neg hj, hSlot j]
          constructor
          · intro h2
            refine Nat.lt_of_le_of_ne (Nat.le_pred_of_lt h2) ?_
            intro he
            exact hj (by rw [he, ← hlast])
          · intro h2
            exact Nat.lt_of_lt_of_le h2 (Nat.sub_le _ _)
      · intro g j hg
        rw [Map.get_remove] at hg
        by_cases hgh : g = h
        · rw [if_pos hgh] at hg; cases hg
        · rw [if_neg hgh] at hg
          exact hKeys g j hg
      · dsimp only
        rw [List.length_take, List.length_take, hLen.1]
      · dsimp only
        rw [List.length_take, List.length_take, hLen.2]
    · dsimp only
      rw [List.length_take]
      exact Nat.min_eq_left (Nat.sub_le _ _)
    · rw [Map.get_remove, if_pos rfl]
    · intro _ g hg
      rw [Map.get_remove, if_neg hg]
    · intro habs
      exact absurd hsucc habs
  · -- a record moves from the final slot into slot i
    have hlastlt : t.forest.nodes.length - 1 < t.forest.nodes.length :=
      Nat.sub_lt hpos Nat.one_pos
    obtain ⟨nw, hnw⟩ : ∃ nw, Map.get t.ids_to_nodes (t.forest.nodes.length - 1) = some nw :=
      (hSlot _).mpr hlastlt
    have hFnw : Map.get t.nodes_to_ids nw = some (t.forest.nodes.length - 1) :=
      (hAgree nw _).mpr hnw
    have hnwh : nw ≠ h := by
      intro he
      rw [he, hget] at hFnw
      exact hlast (Option.some.inj hFnw)
    have hsucc : i + 1 ≠ t.forest.nodes.length := by
      intro he
      exact hlast (by rw [← he]; rfl)
    have hnd : ∃ nd, t.forest.nodes[t.forest.nodes.length - 1]? = some nd :=
      ⟨_, List.getElem?_eq_getElem hlastlt⟩
    have hcl : ∃ cl, t.forest.children[t.forest.nodes.length - 1]? = some cl :=
      ⟨_, List.getElem?_eq_getElem (by rw [hLen.1]; exact hlastlt)⟩
    have hpl : ∃ pl, t.forest.parents[t.forest.nodes.length - 1]? = some pl :=
      ⟨_, List.getElem?_eq_getElem (by rw [hLen.2]; exact hlastlt)⟩
    obtain ⟨nd, hnd⟩ := hnd
    obtain ⟨cl, hcl⟩ := hcl
    obtain ⟨pl, hpl⟩ := hpl
    have hgetnw : Map.get (t.ids_to_nodes.remove i) (t.forest.nodes.length - 1) = some nw := by
      rw [Map.get_remove, if_neg (fun he => hlast (by rw [← he])), hnw]
    have hrem : t.remove h =
        some (({ t with
                  nodes_to_ids := (t.nodes_to_ids.remove h).insert nw i,
                  ids_to_nodes := ((t.ids_to_nodes.remove i).remove
                    (t.forest.nodes.length - 1)).insert i nw,
                  forest := { nodes := (modifyIdx t.forest.nodes i (fun _ => nd)).take
                                (t.forest.nodes.length - 1),
                              children := (modifyIdx t.forest.children i (fun _ => cl)).take
                                (t.forest.nodes.length - 1),
                              parents := (modifyIdx t.forest.parents i (fun _ => pl)).take
                                (t.forest.nodes.length - 1) } }
                : Taffy σ μ),
              Except.ok i) := by
      unfold Taffy.remove
      rw [hfind]
      dsimp only
      unfold Forest.swap_remove
      rw [if_neg (Nat.not_lt.mpr hilen)]
      dsimp only
      rw [if_neg hlast, hnd, hcl, hpl]
      dsimp only
      rw [hgetnw]
    have hFget : ∀ g, Map.get ((t.nodes_to_ids.remove h).insert nw i) g =
        if g = nw then some i else if g = h then none else Map.get t.nodes_to_ids g := by
      intro g
      rw [Map.get_insert, Map.get_remove]
    have hRget : ∀ j, Map.get (((t.ids_to_nodes.remove i).remove
        (t.forest.nodes.length - 1)).insert i nw) j =
        if j = i then some nw
        else if j = t.forest.nodes.length - 1 then none
        else Map.get t.ids_to_nodes j := by
      intro j
      rw [Map.get_insert, Map.get_remove, Map.get_remove]
      by_cases hj : j = i <;> by_cases hj2 : j = t.forest.nodes.length - 1 <;>
        simp [hj, hj2]
    have hnlen : ((modifyIdx t.forest.nodes i (fun _ => nd)).take
        (t.forest.nodes.length - 1)).length = t.forest.nodes.length - 1 := by
      rw [List.length_take, length_modifyIdx]
      exact Nat.min_eq_left (Nat.sub_le _ _)
    refine ⟨_, hrem, ?_, rfl, rfl, ?_, ?_, ?_⟩
    · refine ⟨?_, ?_, ?_, ?_, ?_⟩
      · intro g j
        rw [hFget g, hRget j]
        by_cases hg : g = nw
        · rw [if_pos hg]
          by_cases hj : j = i
          · rw [if_pos hj, hj, hg]
            constructor
            · intro _; rfl
            · intro _; rfl
          · rw [if_neg hj]
            by_cases hj2 : j = t.forest.nodes.length - 1
            · rw [if_pos hj2]
              constructor
              · intro hs; exact absurd (Option.some.inj hs) (fun he => hj he.symm)
              · intro hs; cases hs
            · rw [if_neg hj2]
              constructor
              · intro hs; exact absurd (Option.some.inj hs) (fun he => hj he.symm)
              · intro hs
                have h2 := (hAgree g j).mpr hs
                rw [hg, hFnw] at h2
                exact absurd (Option.some.inj h2).symm hj2
        · rw [if_neg hg]
          by_cases hgh : g = h
          · rw [if_pos hgh]
            by_cases hj : j = i
            · rw [if_pos hj]
              constructor
              · intro hs; cases hs
              · intro hs; exact absurd (Option.some.inj hs) (fun he => hg he.symm)
            · rw [if_neg hj]
              by_cases hj2 : j = t.forest.nodes.length - 1
              · rw [if_pos hj2]
                constructor
                · intro hs; cases hs
                · intro hs; cases hs
              · rw [if_neg hj2]
                constructor
                · intro hs; cases hs
                · intro hs
                  have h2 := (hAgree g j).mpr hs
                  rw [hgh, hget] at h2
                  exact absurd (Option.some.inj h2) (fun he => hj he.symm)
          · rw [if_neg hgh]
            by_cases hj : j = i
            · rw [if_pos hj]
              constructor
              · intro hs
                have h2 := (hAgree g j).mp hs
                rw [hj, hRi] at h2
                exact absurd (Option.some.inj h2).symm hgh
              · intro hs; exact absurd (Option.some.inj hs).symm hg
            · rw [if_neg hj]
              by_cases hj2 : j = t.forest.nodes.length - 1
              · rw [if_pos hj2]
                constructor
                · intro hs
                  have h2 := (hAgree g j).mp hs
                  rw [hj2, hnw] at h2
                  exact absurd (Option.some.inj h2).symm hg
                · intro hs; cases hs
              · rw [if_neg hj2]
                exact hAgree g j
      · intro j
        rw [hRget j]
        dsimp only
        rw [hnlen]
        by_cases hj : j = i
        · rw [if_pos hj]
          constructor
          · intro _
            rw [hj]
            exact Nat.lt_of_le_of_ne (Nat.le_pred_of_lt hilen) hlast
          · intro _; exact ⟨nw, rfl⟩
        · rw [if_neg hj]
          by_cases hj2 : j = t.forest.nodes.length - 1
          · rw [if_pos hj2, hj2]
            constructor
            · intro ⟨g, hg⟩; cases hg
            · intro h2; exact absurd h2 (lt_irrefl _)
          · rw [if_neg hj2, hSlot j]
            constructor
            · intro h2
              exact Nat.lt_of_le_of_ne (Nat.le_pred_of_lt h2) hj2
            · intro h2
              exact Nat.lt_of_lt_of_le h2 (Nat.sub_le _ _)
      · intro g j hg
        rw [hFget g] at hg
        by_cases hgnw : g = nw
        · rw [if_pos hgnw] at hg
          rw [hgnw]
          exact hKeys nw _ hFnw
        · rw [if_neg hgnw] at hg
          by_cases hgh : g = h
          · rw [if_pos hgh] at hg; cases hg
          · rw [if_neg hgh] at hg
            exact hKeys g j hg
      · dsimp only
        rw [List.length_take, List.length_take, length_modifyIdx, length_modifyIdx, hLen.1]
      · dsimp only
        rw [List.length_take, List.length_take, length_modifyIdx, length_modifyIdx, hLen.2]
    · exact hnlen
    · rw [hFget h, if_neg (fun he => hnwh he.symm), if_pos rfl]
    · refine ⟨fun habs => absurd habs hsucc, fun _ => ⟨nw, hnw, hnwh, ?_, ?_, hRget⟩⟩
      · rw [hFget nw, if_pos rfl]
      · intro g hg1 hg2
        rw [hFget g, if_neg hg2, if_neg hg1]

theorem add_child_forest_lengths {σ μ : Type} (f : Forest σ μ) (n c : NodeId) :
    (f.add_child n c).nodes.length = f.nodes.length ∧
    (f.add_child n c).children.length = f.children.length ∧
    (f.add_child n c).parents.length = f.parents.length := by
  unfold Forest.add_child
  refine ⟨?_, ?_, ?_⟩
  · rw [mark_dirty_nodes_length]
  · rw [mark_dirty_children_eq]
    exact length_modifyIdx _ _ _
  · rw [mark_dirty_parents_eq]
    exact length_modifyIdx _ _ _

theorem remove_child_at_index_forest_lengths {σ μ : Type} {f f1 : Forest σ μ}
    {n : NodeId} {idx : Nat} {c : NodeId}
    (h : Forest.remove_child_at_index f n idx = some (f1, c)) :
    f1.nodes.length = f.nodes.length ∧ f1.children.length = f.children.length ∧
    f1.parents.length = f.parents.length := by
  unfold Forest.remove_child_at_index at h
  cases hb : f.children[n]?.bind (fun l => l[idx]?) with
  | none => rw [hb] at h; cases h
  | some child =>
    rw [hb] at h
    cases h
    refine ⟨?_, ?_, ?_⟩
    · rw [mark_dirty_nodes_length]
    · rw [mark_dirty_children_eq]
      exact length_modifyIdx _ _ _
    · rw [mark_dirty_parents_eq]
      exact length_modifyIdx _ _ _

theorem remove_child_forest_lengths {σ μ : Type} {f f1 : Forest σ μ} {n c prev : NodeId}
    (h : Forest.remove_child f n c = some (f1, prev)) :
    f1.nodes.length = f.nodes.length ∧ f1.children.length = f.children.length ∧
    f1.parents.length = f.parents.length := by
  unfold Forest.remove_child at h
  cases hb : f.children[n]?.bind (fun l => l.indexOf? c) with
  | none => rw [hb] at h; cases h
  | some idx =>
    rw [hb] at h
    exact remove_child_at_index_forest_lengths h

theorem add_child_nodes_length {σ μ : Type} (f : Forest σ μ) (n c : NodeId) :
    (f.add_child n c).nodes.length = f.nodes.length :=
  (add_child_forest_lengths f n c).1

theorem add_child_children_length {σ μ : Type} (f : Forest σ μ) (n c : NodeId) :
    (f.add_child n c).children.length = f.children.length :=
  (add_child_forest_lengths f n c).2.1

theorem add_child_parents_length {σ μ : Type} (f : Forest σ μ) (n c : NodeId) :
    (f.add_child n c).parents.length = f.parents.length :=
  (add_child_forest_lengths f n c).2.2

theorem set_measure_shell {σ μ : Type} {t t' : Taffy σ μ} {n : Node} {m : Option μ}
    {r : Except InvalidNode Unit} (h : t.set_measure n m = some (t', r)) :
    SameShell t t' ∧ (TaffyInv t → TaffyInv t') := by
  unfold Taffy.set_measure at h
  split at h
  · cases h
    exact ⟨⟨rfl, rfl, rfl, rfl⟩, fun hi => hi⟩
  · split at h
    · cases h
    · next ns hmod =>
      cases h
      obtain ⟨hlt, hns⟩ := of_modifyIdxP_eq_some hmod
      refine ⟨⟨rfl, rfl, rfl, rfl⟩, fun hi => inv_of_shell hi ⟨rfl, rfl, rfl, rfl⟩ ?_ ?_ ?_⟩
      · dsimp only
        rw [mark_dirty_nodes_length]
        dsimp only
        rw [hns, length_modifyIdx]
      · dsimp only
        rw [mark_dirty_children_eq, mark_dirty_nodes_length]
        dsimp only
        rw [hns, length_modifyIdx]
        exact (lenOk_of_inv hi).1
      · dsimp only
        rw [mark_dirty_parents_eq, mark_dirty_nodes_length]
        dsimp only
        rw [hns, length_modifyIdx]
        exact (lenOk_of_inv hi).2

theorem set_style_shell {σ μ : Type} {t t' : Taffy σ μ} {n : Node} {s : σ}
    {r : Except InvalidNode Unit} (h : t.set_style n s = some (t', r)) :
    SameShell t t' ∧ (TaffyInv t → TaffyInv t') := by
  unfold Taffy.set_style at h
  split at h
  · cases h
    exact ⟨⟨rfl, rfl, rfl, rfl⟩, fun hi => hi⟩
  · split at h
    · cases h
    · next ns hmod =>
      cases h
      obtain ⟨hlt, hns⟩ := of_modifyIdxP_eq_some hmod
      refine ⟨⟨rfl, rfl, rfl, rfl⟩, fun hi => inv_of_shell hi ⟨rfl, rfl, rfl, rfl⟩ ?_ ?_ ?_⟩
      · dsimp only
        rw [mark_dirty_nodes_length]
        dsimp only
        rw [hns, length_modifyIdx]
      · dsimp only
        rw [mark_dirty_children_eq, mark_dirty_nodes_length]
        dsimp only
        rw [hns, length_modifyIdx]
        exact (lenOk_of_inv hi).1
      · dsimp only
        rw [mark_dirty_parents_eq, mark_dirty_nodes_length]
        dsimp only
        rw [hns, length_modifyIdx]
        exact (lenOk_of_inv hi).2

theorem mark_dirty_api_shell {σ μ : Type} (t : Taffy σ μ) (n : Node) :
    SameShell t (t.mark_dirty n).1 ∧ (TaffyInv t → TaffyInv (t.mark_dirty n).1) := by
  unfold Taffy.mark_dirty
  split
  · exact ⟨⟨rfl, rfl, rfl, rfl⟩, fun hi => hi⟩
  · refine ⟨⟨rfl, rfl, rfl, rfl⟩, fun hi => inv_of_shell hi ⟨rfl, rfl, rfl, rfl⟩ ?_ ?_ ?_⟩
    · exact mark_dirty_nodes_length _ _
    · rw [mark_dirty_children_eq, mark_dirty_nodes_length]
      exact (lenOk_of_inv hi).1
    · rw [mark_dirty_parents_eq, mark_dirty_nodes_length]
      exact (lenOk_of_inv hi).2

theorem compute_layout_api_shell {σ μ : Type} (t : Taffy σ μ) (n : Node) :
    SameShell t (t.compute_layout n).1 ∧ (TaffyInv t → TaffyInv (t.compute_layout n).1) := by
  unfold Taffy.compute_layout
  split
  · exact ⟨⟨rfl, rfl, rfl, rfl⟩, fun hi => hi⟩
  · refine ⟨⟨rfl, rfl, rfl, rfl⟩, fun hi => inv_of_shell hi ⟨rfl, rfl, rfl, rfl⟩ ?_ ?_ ?_⟩
    · exact compute_layout_nodes_length _ _
    · rw [compute_layout_children_eq, compute_layout_nodes_length]
      exact (lenOk_of_inv hi).1
    · rw [compute_layout_parents_eq, compute_layout_nodes_length]
      exact (lenOk_of_inv hi).2

theorem add_child_api_shell {σ μ : Type} (t : Taffy σ μ) (p c : Node) :
    SameShell t (t.add_child p c).1 ∧ (TaffyInv t → TaffyInv (t.add_child p c).1) := by
  unfold Taffy.add_child
  split
  · exact ⟨⟨rfl, rfl, rfl, rfl⟩, fun hi => hi⟩
  · split
    · exact ⟨⟨rfl, rfl, rfl, rfl⟩, fun hi => hi⟩
    · refine ⟨⟨rfl, rfl, rfl, rfl⟩, fun hi => inv_of_shell hi ⟨rfl, rfl, rfl, rfl⟩ ?_ ?_ ?_⟩
      · exact add_child_nodes_length _ _ _
      · rw [add_child_children_length, add_child_nodes_length]
        exact (lenOk_of_inv hi).1
      · rw [add_child_parents_length, add_child_nodes_length]
        exact (lenOk_of_inv hi).2

theorem set_children_shell {σ μ : Type} {t t' : Taffy σ μ} {p : Node} {cs : List Node}
    {r : Except InvalidNode Unit} (h : t.set_children p cs = some (t', r)) :
    SameShell t t' ∧ (TaffyInv t → TaffyInv t') := by
  unfold Taffy.set_children at h
  split at h
  · cases h
    exact ⟨⟨rfl, rfl, rfl, rfl⟩, fun hi => hi⟩
  · split at h
    · cases h
      exact ⟨⟨rfl, rfl, rfl, rfl⟩, fun hi => hi⟩
    · split at h
      · cases h
      · split at h
        · cases h
        · next ps1 hf1 =>
          split at h
          · cases h
          · next ps2 hf2 =>
            cases h
            have hl1 := foldlM_modifyIdxP_length _ _ _ _ hf1
            have hl2 := foldlM_modifyIdxP_length _ _ _ _ hf2
            refine ⟨⟨rfl, rfl, rfl, rfl⟩,
              fun hi => inv_of_shell hi ⟨rfl, rfl, rfl, rfl⟩ ?_ ?_ ?_⟩
            · dsimp only
              rw [mark_dirty_nodes_length]
            · dsimp only
              rw [mark_dirty_children_eq, mark_dirty_nodes_length]
              dsimp only
              rw [length_modifyIdx]
              exact (lenOk_of_inv hi).1
            · dsimp only
              rw [mark_dirty_parents_eq, mark_dirty_nodes_length]
              dsimp only
              rw [hl2, hl1]
              exact (lenOk_of_inv hi).2

theorem remove_child_api_shell {σ μ : Type} {t t' : Taffy σ μ} {p c : Node}
    {r : Except InvalidNode Node} (h : t.remove_child p c = some (t', r)) :
    SameShell t t' ∧ (TaffyInv t → TaffyInv t') := by
  unfold Taffy.remove_child at h
  split at h
  · cases h
    exact ⟨⟨rfl, rfl, rfl, rfl⟩, fun hi => hi⟩
  · split at h
    · cases h
      exact ⟨⟨rfl, rfl, rfl, rfl⟩, fun hi => hi⟩
    · split at h
      · cases h
      · next f1 prev_id hrc =>
        split at h
        · cases h
        · cases h
          have hlens := remove_child_forest_lengths hrc
          refine ⟨⟨rfl, rfl, rfl, rfl⟩,
            fun hi => inv_of_shell hi ⟨rfl, rfl, rfl, rfl⟩ ?_ ?_ ?_⟩
          · exact hlens.1
          · rw [hlens.2.1, hlens.1]
            exact (lenOk_of_inv hi).1
          · rw [hlens.2.2, hlens.1]
            exact (lenOk_of_inv hi).2

theorem remove_child_at_index_api_shell {σ μ : Type} {t t' : Taffy σ μ} {p : Node}
    {idx : Nat} {r : Except InvalidChild Node}
    (h : t.remove_child_at_index p idx = some (t', r)) :
    SameShell t t' ∧ (TaffyInv t → TaffyInv t') := by
  unfold Taffy.remove_child_at_index at h
  split at h
  · cases h
    exact ⟨⟨rfl, rfl, rfl, rfl⟩, fun hi => hi⟩
  · split at h
    · cases h
    · split at h
      · cases h
        exact ⟨⟨rfl, rfl, rfl, rfl⟩, fun hi => hi⟩
      · split at h
        · cases h
        · next f1 prev_id hrc =>
          split at h
          · cases h
          · cases h
            have hlens := remove_child_at_index_forest_lengths hrc
            refine ⟨⟨rfl, rfl, rfl, rfl⟩,
              fun hi => inv_of_shell hi ⟨rfl, rfl, rfl, rfl⟩ ?_ ?_ ?_⟩
            · exact hlens.1
            · rw [hlens.2.1, hlens.1]
              exact (lenOk_of_inv hi).1
            · rw [hlens.2.2, hlens.1]
              exact (lenOk_of_inv hi).2

theorem replace_child_at_index_api_shell {σ μ : Type} {t t' : Taffy σ μ} {p : Node}
    {idx : Nat} {c : Node} {r : Except InvalidChild Node}
    (h : t.replace_child_at_index p idx c = some (t', r)) :
    SameShell t t' ∧ (TaffyInv t → TaffyInv t') := by
  unfold Taffy.replace_child_at_index at h
  split at h
  · cases h
    exact ⟨⟨rfl, rfl, rfl, rfl⟩, fun hi => hi⟩
  · split at h
    · cases h
      exact ⟨⟨rfl, rfl, rfl, rfl⟩, fun hi => hi⟩
    · split at h
      · cases h
      · split at h
        · cases h
          exact ⟨⟨rfl, rfl, rfl, rfl⟩, fun hi => hi⟩
        · split at h
          · cases h
          · next ps1 hm1 =>
            split at h
            · cases h
            · split at h
              · cases h
              · next ps2 hm2 =>
                dsimp only at h
                split at h
                · cases h
                · cases h
                  obtain ⟨hl1, hps1⟩ := of_modifyIdxP_eq_some hm1
                  obtain ⟨hl2, hps2⟩ := of_modifyIdxP_eq_some hm2
                  refine ⟨⟨rfl, rfl, rfl, rfl⟩,
                    fun hi => inv_of_shell hi ⟨rfl, rfl, rfl, rfl⟩ ?_ ?_ ?_⟩
                  · dsimp only
                    rw [mark_dirty_nodes_length]
                  · dsimp only
                    rw [mark_dirty_children_eq, mark_dirty_nodes_length]
                    dsimp only
                    rw [length_modifyIdx]
                    exact (lenOk_of_inv hi).1
                  · dsimp only
                    rw [mark_dirty_parents_eq, mark_dirty_nodes_length]
                    dsimp only
                    rw [hps2, length_modifyIdx, hps1, length_modifyIdx]
                    exact (lenOk_of_inv hi).2

theorem remove_error_eq {σ μ : Type} {t : Taffy σ μ} {n : Node}
    (hg : Map.get t.nodes_to_ids n = none) :
    t.remove n = some (t, Except.error { node := n }) := by
  unfold Taffy.remove
  rw [find_node_error_of_get_none _ _ hg]

theorem dead_of_shell {σ μ : Type} {t t' : Taffy σ μ} (hs : SameShell t t') {h0 : Node}
    (hd : Dead t h0) : Dead t' h0 := by
  unfold Dead at *
  rw [hs.1, hs.2.2.2]
  exact hd

/-- One facade step preserves the invariant, the instance id, the monotone
local-id counter, and the deadness of any dead handle. -/
theorem step_facts {σ μ : Type} {t t' : Taffy σ μ} {op : TOp σ μ}
    (hstep : step t op = some t') (hInv : TaffyInv t) :
    TaffyInv t' ∧ t'.id = t.id ∧ t.allocator.last_id ≤ t'.allocator.last_id ∧
    (∀ h0 : Node, Dead t h0 → Dead t' h0) := by
  cases op with
  | newLeaf s m =>
    cases hstep
    refine ⟨new_leaf_inv hInv s m, ?_, ?_, ?_⟩
    · rw [new_leaf_eq]
    · rw [new_leaf_eq]
      exact Nat.le_succ _
    · intro h0 hd
      rw [new_leaf_eq]
      refine ⟨?_, Nat.lt_succ_of_lt hd.2⟩
      dsimp only
      rw [Map.get_insert, if_neg (fun he => by
        have hv : h0.localId.val = t.allocator.last_id := by rw [he]
        have h2 := hd.2
        rw [hv] at h2
        exact absurd h2 (lt_irrefl _))]
      exact hd.1
  | newWithChildren s cs =>
    cases hstep
    refine ⟨new_with_children_inv hInv s cs, ?_, ?_, ?_⟩
    · cases hcol : collectE t.find_node cs with
      | error e => rw [new_with_children_error_eq hcol]
      | ok cids => rw [new_with_children_ok_eq hcol]
    · cases hcol : collectE t.find_node cs with
      | error e =>
        rw [new_with_children_error_eq hcol]
        exact Nat.le_succ _
      | ok cids =>
        rw [new_with_children_ok_eq hcol]
        exact Nat.le_succ _
    · intro h0 hd
      cases hcol : collectE t.find_node cs with
      | error e =>
        rw [new_with_children_error_eq hcol]
        exact ⟨hd.1, Nat.lt_succ_of_lt hd.2⟩
      | ok cids =>
        rw [new_with_children_ok_eq hcol]
        refine ⟨?_, Nat.lt_succ_of_lt hd.2⟩
        dsimp only
        rw [Map.get_insert, if_neg (fun he => by
          have hv : h0.localId.val = t.allocator.last_id := by rw [he]
          have h2 := hd.2
          rw [hv] at h2
          exact absurd h2 (lt_irrefl _))]
        exact hd.1
  | remove n =>
    simp only [step] at hstep
    cases hg : Map.get t.nodes_to_ids n with
    | none =>
      rw [remove_error_eq hg] at hstep
      cases hstep
      exact ⟨hInv, rfl, Nat.le_refl _, fun _ hd => hd⟩
    | some i =>
      obtain ⟨t2, hrem, hInv2, hid2, halloc2, _, hnone, hnorel, hrel⟩ := remove_spec hInv hg
      rw [hrem] at hstep
      cases hstep
      refine ⟨hInv2, hid2, by rw [halloc2], ?_⟩
      intro h0 hd
      refine ⟨?_, by rw [halloc2]; exact hd.2⟩
      by_cases hh0 : h0 = n
      · rw [hh0]
        exact hnone
      · by_cases hbr : i + 1 = t.forest.nodes.length
        · rw [hnorel hbr h0 hh0]
          exact hd.1
        · obtain ⟨nw, hnw, hnwh, hnwget, hpoint, hR⟩ := hrel hbr
          have hFnw : Map.get t.nodes_to_ids nw = some (t.forest.nodes.length - 1) :=
            (hInv.1 nw _).mpr hnw
          have hnwne : h0 ≠ nw := by
            intro he
            have h1 := hd.1
            rw [he, hFnw] at h1
            cases h1
          rw [hpoint h0 hh0 hnwne]
          exact hd.1
  | setMeasure n m =>
    simp only [step] at hstep
    cases hsm : t.set_measure n m with
    | none => rw [hsm] at hstep; cases hstep
    | some pr =>
      obtain ⟨t1, r⟩ := pr
      rw [hsm] at hstep
      cases hstep
      have hs := set_measure_shell hsm
      exact ⟨hs.2 hInv, hs.1.2.2.1, by rw [hs.1.2.2.2], fun h0 => dead_of_shell hs.1⟩
  | addChild p c =>
    cases hstep
    have hs := add_child_api_shell t p c
    exact ⟨hs.2 hInv, hs.1.2.2.1, by rw [hs.1.2.2.2], fun h0 => dead_of_shell hs.1⟩
  | setChildren p cs =>
    simp only [step] at hstep
    cases hsc : t.set_children p cs with
    | none => rw [hsc] at hstep; cases hstep
    | some pr =>
      obtain ⟨t1, r⟩ := pr
      rw [hsc] at hstep
      cases hstep
      have hs := set_children_shell hsc
      exact ⟨hs.2 hInv, hs.1.2.2.1, by rw [hs.1.2.2.2], fun h0 => dead_of_shell hs.1⟩
  | removeChild p c =>
    simp only [step] at hstep
    cases hrc : t.remove_child p c with
    | none => rw [hrc] at hstep; cases hstep
    | some pr =>
      obtain ⟨t1, r⟩ := pr
      rw [hrc] at hstep
      cases hstep
      have hs := remove_child_api_shell hrc
      exact ⟨hs.2 hInv, hs.1.2.2.1, by rw [hs.1.2.2.2], fun h0 => dead_of_shell hs.1⟩
  | removeChildAtIndex p idx =>
    simp only [step] at hstep
    cases hrc : t.remove_child_at_index p idx with
    | none => rw [hrc] at hstep; cases hstep
    | some pr =>
      obtain ⟨t1, r⟩ := pr
      rw [hrc] at hstep
      cases hstep
      have hs := remove_child_at_index_api_shell hrc
      exact ⟨hs.2 hInv, hs.1.2.2.1, by rw [hs.1.2.2.2], fun h0 => dead_of_shell hs.1⟩
  | replaceChildAtIndex p idx c =>
    simp only [step] at hstep
    cases hrc : t.replace_child_at_index p idx c with
    | none => rw [hrc] at hstep; cases hstep
    | some pr =>
      obtain ⟨t1, r⟩ := pr
      rw [hrc] at hstep
      cases hstep
      have hs := replace_child_at_index_api_shell hrc
      exact ⟨hs.2 hInv, hs.1.2.2.1, by rw [hs.1.2.2.2], fun h0 => dead_of_shell hs.1⟩
  | setStyle n s =>
    simp only [step] at hstep
    cases hss : t.set_style n s with
    | none => rw [hss] at hstep; cases hstep
    | some pr =>
      obtain ⟨t1, r⟩ := pr
      rw [hss] at hstep
      cases hstep
      have hs := set_style_shell hss
      exact ⟨hs.2 hInv, hs.1.2.2.1, by rw [hs.1.2.2.2], fun h0 => dead_of_shell hs.1⟩
  | markDirty n =>
    cases hstep
    have hs := mark_dirty_api_shell t n
    exact ⟨hs.2 hInv, hs.1.2.2.1, by rw [hs.1.2.2.2], fun h0 => dead_of_shell hs.1⟩
  | computeLayout n =>
    cases hstep
    have hs := compute_layout_api_shell t n
    exact ⟨hs.2 hInv, hs.1.2.2.1, by rw [hs.1.2.2.2], fun h0 => dead_of_shell hs.1⟩
  | clearAll =>
    cases hstep
    have hc := clear_inv t
    exact ⟨hc.1, hc.2.1, by rw [hc.2.2.1], fun h0 hd => ⟨rfl, by rw [hc.2.2.1]; exact hd.2⟩⟩

theorem with_capacity_inv {σ μ : Type} (iid : Ident) (cap : Nat) :
    TaffyInv (Taffy.with_capacity iid cap : Taffy σ μ) := by
  refine ⟨?_, ?_, ?_, rfl, rfl⟩
  · intro g j
    constructor
    · intro hg; cases hg
    · intro hg; cases hg
  · intro j
    constructor
    · intro ⟨g, hg⟩; cases hg
    · intro hj; cases hj
  · intro g j hg
    cases hg

/-- Running a trace preserves the invariant, the instance id, the monotone
counter and dead handles. -/
theorem exec_facts {σ μ : Type} :
    ∀ (ops : List (TOp σ μ)) (t t' : Taffy σ μ), exec t ops = some t' → TaffyInv t →
      TaffyInv t' ∧ t'.id = t.id ∧ t.allocator.last_id ≤ t'.allocator.last_id ∧
      (∀ h0 : Node, Dead t h0 → Dead t' h0) := by
  intro ops
  induction ops with
  | nil =>
    intro t t' hx hInv
    cases hx
    exact ⟨hInv, rfl, Nat.le_refl _, fun _ hd => hd⟩
  | cons op ops ih =>
    intro t t' hx hInv
    unfold exec at hx
    cases hst : step t op with
    | none => rw [hst] at hx; cases hx
    | some t1 =>
      rw [hst] at hx
      have h1 := step_facts hst hInv
      have h2 := ih t1 t' hx h1.1
      exact ⟨h2.1, by rw [h2.2.1, h1.2.1], Nat.le_trans h1.2.2.1 h2.2.2.1,
        fun h0 hd => h2.2.2.2 h0 (h1.2.2.2 h0 hd)⟩

/-- Every fallible operation starts by resolving its handle, so a handle
absent from the forward map is rejected with `InvalidNode` by all of them,
with no state change. -/
theorem opsReject_of_get_none {σ μ : Type} {t : Taffy σ μ} {h : Node}
    (hg : Map.get t.nodes_to_ids h = none) : opsReject t h := by
  have hf : t.find_node h = Except.error { node := h } := find_node_error_of_get_none t h hg
  refine ⟨hf, ?_, ?_, ?_, ?_, ?_, remove_error_eq hg, ?_, ?_, ?_, ?_, ?_, ?_, ?_, ?_, ?_,
    ?_, ?_, ?_, ?_⟩
  · simp only [Taffy.style, hf]
  · simp only [Taffy.layout, hf]
  · simp only [Taffy.dirty, hf]
  · simp only [Taffy.child_count, hf]
  · simp only [Taffy.children, hf]
  · simp only [Taffy.mark_dirty, hf]
  · simp only [Taffy.compute_layout, hf]
  · intro s
    simp only [Taffy.set_style, hf]
  · intro m
    simp only [Taffy.set_measure, hf]
  · intro c
    simp only [Taffy.add_child, hf]
  · intro p pid hp
    simp only [Taffy.add_child, hp, hf]
  · intro cs
    simp only [Taffy.set_children, hf]
  · intro c
    simp only [Taffy.remove_child, hf]
  · intro p pid hp
    simp only [Taffy.remove_child, hp, hf]
  · intro s cs hmem
    obtain ⟨e2, hcol, a2, ha2, hfa2⟩ := collectE_error_of_mem t.find_node hmem hf
    obtain ⟨hga2, he2⟩ := get_none_of_find_node_error t a2 e2 hfa2
    refine ⟨a2, ?_, find_node_error_of_get_none t a2 hga2⟩
    rw [new_with_children_error_eq hcol, he2]
  · intro i
    simp only [Taffy.remove_child_at_index, hf]
  · intro i c
    simp only [Taffy.replace_child_at_index, hf]
  · intro i
    simp only [Taffy.child_at_index, hf]

theorem getElem?_implies_mem {α : Type} :
    ∀ (l : List α) (i : Nat) (a : α), l[i]? = some a → a ∈ l := by
  intro l
  induction l with
  | nil => intro i a h; cases i <;> cases h
  | cons x l ih =>
    intro i a h
    cases i with
    | zero =>
      rw [List.getElem?_cons_zero] at h
      cases h
      exact List.mem_cons_self x l
    | succ i =>
      rw [List.getElem?_cons_succ] at h
      exact List.mem_cons_of_mem x (ih i a h)

theorem set_of_getElem?_self {α : Type} :
    ∀ (l : List α) (n : Nat) (a : α), l[n]? = some a → l.set n a = l := by
  intro l
  induction l with
  | nil => intro n a h; cases n <;> cases h
  | cons x l ih =>
    intro n a h
    cases n with
    | zero =>
      rw [List.getElem?_cons_zero] at h
      cases h
      rfl
    | succ n =>
      rw [List.getElem?_cons_succ] at h
      rw [List.set_cons_succ, ih n a h]

theorem map_set_comm {α β : Type} (f : α → β) :
    ∀ (l : List α) (n : Nat) (a : α), (l.set n a).map f = (l.map f).set n (f a) := by
  intro l
  induction l with
  | nil => intro n a; rfl
  | cons x l ih =>
    intro n a
    cases n with
    | zero => rfl
    | succ n =>
      rw [List.set_cons_succ, List.map_cons, List.map_cons, List.set_cons_succ, ih]

theorem winv_init {σ μ : Type} : WInv (initWorld : World σ μ) := by
  constructor
  · intro t ht
    cases ht
  · exact List.Pairwise.nil

theorem wstep_winv {σ μ : Type} {w w' : World σ μ} {op : WOp σ μ}
    (hstep : wstep w op = some w') (hw : WInv w) : WInv w' := by
  cases op with
  | newInstance c =>
    cases hstep
    constructor
    · intro t ht
      dsimp only at ht
      cases List.mem_append.mp ht with
      | inl hmem =>
        have h2 := hw.1 t hmem
        exact ⟨h2.1, Nat.lt_succ_of_lt h2.2⟩
      | inr hmem =>
        rw [List.mem_singleton.mp hmem]
        exact ⟨with_capacity_inv _ _, Nat.lt_succ_self _⟩
    · dsimp only
      rw [List.map_append]
      apply (List.pairwise_append).mpr
      refine ⟨hw.2, List.pairwise_singleton _ _, ?_⟩
      intro x hx y hy
      obtain ⟨tx, htx, hfx⟩ := List.mem_map.mp hx
      rw [List.mem_singleton.mp hy, ← hfx]
      intro he
      have h2 := (hw.1 tx htx).2
      rw [show tx.id = ({ val := w.instance_allocator.last_id } : Ident) from he] at h2
      exact absurd h2 (lt_irrefl _)
  | instanceOp idx op =>
    simp only [wstep] at hstep
    cases hget : w.instances[idx]? with
    | none => rw [hget] at hstep; cases hstep
    | some t =>
      rw [hget] at hstep
      dsimp only at hstep
      cases hst : step t op with
      | none => rw [hst] at hstep; cases hstep
      | some t1 =>
        rw [hst] at hstep
        cases hstep
        have htmem : t ∈ w.instances := getElem?_implies_mem _ _ _ hget
        have hfacts := step_facts hst (hw.1 t htmem).1
        constructor
        · intro t2 ht2
          dsimp only at ht2
          cases List.mem_or_eq_of_mem_set ht2 with
          | inl hmem => exact hw.1 t2 hmem
          | inr heq =>
            rw [heq]
            refine ⟨hfacts.1, ?_⟩
            rw [hfacts.2.1]
            exact (hw.1 t htmem).2
        · dsimp only
          rw [map_set_comm, hfacts.2.1,
            set_of_getElem?_self _ _ _ (by rw [List.getElem?_map, hget]; rfl)]
          exact hw.2

theorem wexec_winv {σ μ : Type} :
    ∀ (wops : List (WOp σ μ)) (w w' : World σ μ), wexec w wops = some w' → WInv w → WInv w' := by
  intro wops
  induction wops with
  | nil =>
    intro w w' hx hw
    cases hx
    exact hw
  | cons op ops ih =>
    intro w w' hx hw
    unfold wexec at hx
    cases hst : wstep w op with
    | none => rw [hst] at hx; cases hx
    | some w1 =>
      rw [hst] at hx
      exact ih w1 w' hx (wstep_winv hst hw)

theorem winv_distinct_ids {σ μ : Type} {w : World σ μ} {a b : Nat} {A B : Taffy σ μ}
    (hw : WInv w) (ha : w.instances[a]? = some A) (hb : w.instances[b]? = some B)
    (hab : a ≠ b) : A.id ≠ B.id := by
  have hpg := List.pairwise_iff_getElem.mp hw.2
  have hmapa : (w.instances.map (fun t => t.id))[a]? = some A.id := by
    rw [List.getElem?_map, ha]
    rfl
  have hmapb : (w.instances.map (fun t => t.id))[b]? = some B.id := by
    rw [List.getElem?_map, hb]
    rfl
  have hla : a < (w.instances.map (fun t => t.id)).length :=
    (List.getElem?_eq_some.mp hmapa).1
  have hlb : b < (w.instances.map (fun t => t.id)).length :=
    (List.getElem?_eq_some.mp hmapb).1
  have hva : (w.instances.map (fun t => t.id))[a] = A.id := by
    have := List.getElem?_eq_getElem hla
    rw [hmapa] at this
    exact (Option.some.inj this).symm
  have hvb : (w.instances.map (fun t => t.id))[b] = B.id := by
    have := List.getElem?_eq_getElem hlb
    rw [hmapb] at this
    exact (Option.some.inj this).symm
  cases Nat.lt_or_ge a b with
  | inl hlt =>
    have h2 := hpg a b hla hlb hlt
    rw [hva, hvb] at h2
    exact h2
  | inr hge =>
    cases Nat.eq_or_lt_of_le hge with
    | inl heq => exact absurd heq.symm hab
    | inr hlt =>
      have h2 := hpg b a hlb hla hlt
      rw [hva, hvb] at h2
      exact fun he => h2 he.symm

theorem find_node_congr {σ μ : Type} {t t' : Taffy σ μ}
    (hF : t'.nodes_to_ids = t.nodes_to_ids) (n : Node) : t'.find_node n = t.find_node n := by
  unfold Taffy.find_node
  rw [hF]

theorem forall2_swap {α β : Type} {R : α → β → Prop} :
    ∀ {l : List α} {l' : List β}, List.Forall₂ R l l' →
      List.Forall₂ (fun b a => R a b) l' l := by
  intro l l' h
  induction h with
  | nil => exact List.Forall₂.nil
  | cons hab _ ih => exact List.Forall₂.cons hab ih

theorem forall2_mem_right {α β : Type} {R : α → β → Prop} :
    ∀ {l : List α} {l' : List β}, List.Forall₂ R l l' → ∀ b ∈ l', ∃ a ∈ l, R a b := by
  intro l l' h
  induction h with
  | nil => intro b hb; cases hb
  | cons hab hrest ih =>
    intro b hb
    cases List.mem_cons.mp hb with
    | inl he =>
      rw [he]
      exact ⟨_, List.mem_cons_self _ _, hab⟩
    | inr hmem =>
      obtain ⟨a, ha, har⟩ := ih b hmem
      exact ⟨a, List.mem_cons_of_mem _ ha, har⟩

/-- A handle carrying a foreign instance id is absent from the forward
map. -/
theorem foreign_get_none {σ μ : Type} {t : Taffy σ μ} {h : Node} (hInv : TaffyInv t)
    (hne : h.instanceId ≠ t.id) : Map.get t.nodes_to_ids h = none := by
  cases hg : Map.get t.nodes_to_ids h with
  | none => rfl
  | some i => exact absurd (hInv.2.2.1 h i hg).1 hne

/-- A handle that resolves denotes an occupied slot. -/
theorem resolved_lt_len {σ μ : Type} {t : Taffy σ μ} {h : Node} {i : NodeId}
    (hInv : TaffyInv t) (hf : t.find_node h = Except.ok i) : i < t.forest.nodes.length :=
  (hInv.2.1 i).mp ⟨h, (hInv.1 h i).mp ((find_node_ok_iff t h i).mp hf)⟩

/-- When the stored child list of a resolved parent is exactly `cids`, and
`cids` resolves pointwise back to the handles `cs`, the two query operations
return the handles in exactly that stored order. -/
theorem children_query_of_forall2 {σ μ : Type} {t : Taffy σ μ} {p : Node} {pid : NodeId}
    {cs : List Node} {cids : List NodeId} (hInv : TaffyInv t)
    (hfp : t.find_node p = Except.ok pid)
    (hkids : t.forest.children[pid]? = some cids)
    (hf2 : List.Forall₂ (fun c i => t.find_node c = Except.ok i) cs cids) :
    t.children p = some (Except.ok cs) ∧
    (∀ (k : Nat) (c0 : Node), cs[k]? = some c0 →
      t.child_at_index p k = some (Except.ok c0)) := by
  have hback : List.Forall₂ (fun i c => Map.get t.ids_to_nodes i = some c) cids cs :=
    (forall2_swap hf2).imp
      (fun i c hfc => (hInv.1 c i).mp ((find_node_ok_iff t c i).mp hfc))
  constructor
  · unfold Taffy.children
    rw [hfp]
    dsimp only
    rw [hkids]
    dsimp only
    rw [(collectO_some_forall2 _).mpr hback]
  · intro k c0 hc0
    obtain ⟨i, hi, hfc⟩ := forall2_getElem?_left hf2 k c0 hc0
    unfold Taffy.child_at_index
    rw [hfp]
    dsimp only
    rw [hkids]
    dsimp only
    have hklen : k < cids.length := (List.getElem?_eq_some.mp hi).1
    rw [if_neg (fun hge => absurd hklen (Nat.not_lt.mpr hge)), hi]
    dsimp only
    rw [(hInv.1 c0 i).mp ((find_node_ok_iff _ _ _).mp hfc)]

/-- Traces of creations and removals never panic under the invariant. -/
theorem exec_total_create_remove {σ μ : Type} :
    ∀ (ops : List (TOp σ μ)) (t : Taffy σ μ), TaffyInv t →
      (∀ op ∈ ops, isCreateOrRemove op = true) → ∃ t', exec t ops = some t' := by
  intro ops
  induction ops with
  | nil => intro t _ _; exact ⟨t, rfl⟩
  | cons op ops ih =>
    intro t hInv hops
    have hop := hops op (List.mem_cons_self op ops)
    have hstep : ∃ t1, step t op = some t1 := by
      cases op with
      | newLeaf s m => exact ⟨_, rfl⟩
      | newWithChildren s cs => exact ⟨_, rfl⟩
      | remove n =>
        cases hg : Map.get t.nodes_to_ids n with
        | none =>
          refine ⟨t, ?_⟩
          simp only [step]
          rw [remove_error_eq hg]
          rfl
        | some i =>
          obtain ⟨t2, hrem, _⟩ := remove_spec hInv hg
          refine ⟨t2, ?_⟩
          simp only [step]
          rw [hrem]
          rfl
      | setMeasure n m => cases hop
      | addChild p c => cases hop
      | setChildren p cs => cases hop
      | removeChild p c => cases hop
      | removeChildAtIndex p i => cases hop
      | replaceChildAtIndex p i c => cases hop
      | setStyle n s => cases hop
      | markDirty n => cases hop
      | computeLayout n => cases hop
      | clearAll => cases hop
    obtain ⟨t1, hst⟩ := hstep
    obtain ⟨t', hx⟩ := ih t1 (step_facts hst hInv).1
      (fun o ho => hops o (List.mem_cons_of_mem op ho))
    refine ⟨t', ?_⟩
    unfold exec
    rw [hst]
    exact hx

/-- Successful `set_children`: the stored child list becomes exactly the
resolved indices, in order, and nothing else observable changes shape. -/
theorem set_children_ok {σ μ : Type} {t : Taffy σ μ} {p : Node} {cs : List Node}
    {pid : NodeId} {cids : List NodeId} (hInv : TaffyInv t)
    (hfp : t.find_node p = Except.ok pid)
    (hcol : collectE t.find_node cs = Except.ok cids)
    (hlive : ∀ c ∈ t.forest.children[pid]?.getD [], c < t.forest.parents.length) :
    ∃ t', t.set_children p cs = some (t', Except.ok ()) ∧ SameShell t t' ∧ TaffyInv t' ∧
      t'.forest.children[pid]? = some cids := by
  have hpid : pid < t.forest.children.length := by
    rw [hInv.2.2.2.1]
    exact resolved_lt_len hInv hfp
  have hcold : t.forest.children[pid]? = some t.forest.children[pid] :=
    List.getElem?_eq_getElem hpid
  have hf2 := (collectE_ok_forall2 t.find_node).mp hcol
  obtain ⟨ps1, hf1⟩ := foldlM_modifyIdxP_isSome (fun c => (·.filter (· ≠ pid)))
    t.forest.children[pid] t.forest.parents
    (by
      intro c hc
      apply hlive
      rw [hcold]
      exact hc)
  obtain ⟨ps2, hfold2⟩ := foldlM_modifyIdxP_isSome (fun c => (· ++ [pid])) cids ps1
    (by
      intro c hc
      rw [foldlM_modifyIdxP_length _ _ _ _ hf1, hInv.2.2.2.2]
      obtain ⟨c0, _, hfc⟩ := forall2_mem_right hf2 c hc
      exact resolved_lt_len hInv hfc)
  refine ⟨{ t with forest :=
      ({ t.forest with
         parents := ps2,
         children := modifyIdx t.forest.children pid (fun _ => cids) }
        : Forest σ μ).mark_dirty pid }, ?_, ?_, ?_, ?_⟩
  · unfold Taffy.set_children
    rw [hfp]
    dsimp only
    rw [hcol]
    dsimp only
    rw [hcold]
    dsimp only
    rw [hf1]
    dsimp only
    rw [hfold2]
  · exact ⟨rfl, rfl, rfl, rfl⟩
  · refine inv_of_shell hInv ⟨rfl, rfl, rfl, rfl⟩ ?_ ?_ ?_
    · dsimp only
      rw [mark_dirty_nodes_length]
    · dsimp only
      rw [mark_dirty_children_eq, mark_dirty_nodes_length]
      dsimp only
      rw [length_modifyIdx]
      exact hInv.2.2.2.1
    · dsimp only
      rw [mark_dirty_parents_eq, mark_dirty_nodes_length]
      dsimp only
      rw [foldlM_modifyIdxP_length _ _ _ _ hfold2, foldlM_modifyIdxP_length _ _ _ _ hf1]
      exact hInv.2.2.2.2
  · dsimp only
    rw [mark_dirty_children_eq]
    dsimp only
    rw [getElem?_modifyIdx, if_pos rfl, hcold]
    rfl

/-- Successful `new_with_children`: the fresh parent's stored child list is
exactly the resolved indices, and the previously live handles still resolve
to their indices. -/
theorem new_with_children_wiring {σ μ : Type} {t : Taffy σ μ} {s : σ} {cs : List Node}
    {cids : List NodeId} (hInv : TaffyInv t)
    (hcol : collectE t.find_node cs = Except.ok cids) :
    (t.new_with_children s cs).2 =
      Except.ok { instanceId := t.id, localId := { val := t.allocator.last_id } } ∧
    TaffyInv (t.new_with_children s cs).1 ∧
    (t.new_with_children s cs).1.find_node
      { instanceId := t.id, localId := { val := t.allocator.last_id } } =
      Except.ok t.forest.nodes.length ∧
    (t.new_with_children s cs).1.forest.children[t.forest.nodes.length]? = some cids ∧
    (∀ (c : Node) (i : NodeId), t.find_node c = Except.ok i →
      (t.new_with_children s cs).1.find_node c = Except.ok i) := by
  refine ⟨by rw [new_with_children_ok_eq hcol], new_with_children_inv hInv s cs, ?_, ?_, ?_⟩
  · rw [new_with_children_ok_eq hcol]
    unfold Taffy.find_node
    dsimp only
    rw [Map.get_insert, if_pos rfl]
  · rw [new_with_children_ok_eq hcol]
    show (t.forest.new_with_children s cids).1.children[t.forest.nodes.length]? = some cids
    unfold Forest.new_with_children
    dsimp only
    rw [show t.forest.nodes.length = t.forest.children.length from hInv.2.2.2.1.symm]
    exact List.getElem?_concat_length _ _
  · intro c i hfc
    rw [new_with_children_ok_eq hcol]
    unfold Taffy.find_node
    dsimp only
    rw [Map.get_insert, if_neg ?hne]
    · exact hfc
    · intro he
      have h2 := (hInv.2.2.1 c i ((find_node_ok_iff t c i).mp hfc)).2
      rw [he] at h2
      exact absurd h2 (lt_irrefl _)

/-- Successful `replace_child_at_index`: returns the displaced handle, puts
the new child into the slot, removes the parent from the displaced child's
parent list, and marks the parent dirty. -/
theorem replace_child_ok {σ μ : Type} {t : Taffy σ μ} {p c : Node} {idx : Nat}
    {pid cid old_child : NodeId} {kids : List NodeId} {oldh : Node}
    (hInv : TaffyInv t)
    (hfp : t.find_node p = Except.ok pid)
    (hfc : t.find_node c = Except.ok cid)
    (hkids : t.forest.children[pid]? = some kids)
    (hidx : idx < kids.length)
    (hold : kids[idx]? = some old_child)
    (holdh : Map.get t.ids_to_nodes old_child = some oldh) :
    ∃ t', t.replace_child_at_index p idx c = some (t', Except.ok oldh) ∧
      SameShell t t' ∧ TaffyInv t' ∧
      t'.child_at_index p idx = some (Except.ok c) ∧
      (∃ l, t'.forest.parents[old_child]? = some l ∧ pid ∉ l) ∧
      t'.dirty p = some (Except.ok true) := by
  have hcidlt : cid < t.forest.parents.length := by
    rw [hInv.2.2.2.2]
    exact resolved_lt_len hInv hfc
  have hpidlt : pid < t.forest.nodes.length := resolved_lt_len hInv hfp
  have holdlt : old_child < t.forest.nodes.length := (hInv.2.1 old_child).mp ⟨oldh, holdh⟩
  have hm1 := @modifyIdxP_some_of_lt _ t.forest.parents cid (· ++ [pid]) hcidlt
  have hold_plt : old_child < (modifyIdx t.forest.parents cid (· ++ [pid])).length := by
    rw [length_modifyIdx, hInv.2.2.2.2]
    exact holdlt
  have hm2 := @modifyIdxP_some_of_lt _ (modifyIdx t.forest.parents cid (· ++ [pid]))
    old_child (·.filter (· ≠ pid)) hold_plt
  have hres : t.replace_child_at_index p idx c =
      some (({ t with forest :=
          ({ t.forest with
             parents := modifyIdx (modifyIdx t.forest.parents cid (· ++ [pid])) old_child
               (·.filter (· ≠ pid)),
             children := modifyIdx t.forest.children pid
               (fun l => modifyIdx l idx (fun _ => cid)) }
            : Forest σ μ).mark_dirty pid } : Taffy σ μ),
        Except.ok oldh) := by
    unfold Taffy.replace_child_at_index
    rw [hfp]
    dsimp only
    rw [hfc]
    dsimp only
    rw [hkids]
    dsimp only
    rw [if_neg (fun hge => absurd hidx (Nat.not_lt.mpr hge)), hm1]
    dsimp only
    rw [hold]
    dsimp only
    rw [hm2]
    dsimp only
    rw [show Map.get t.ids_to_nodes old_child = some oldh from holdh]
  refine ⟨_, hres, ⟨rfl, rfl, rfl, rfl⟩, ?_, ?_, ?_, ?_⟩
  · refine inv_of_shell hInv ⟨rfl, rfl, rfl, rfl⟩ ?_ ?_ ?_
    · dsimp only
      rw [mark_dirty_nodes_length]
    · dsimp only
      rw [mark_dirty_children_eq, mark_dirty_nodes_length]
      dsimp only
      rw [length_modifyIdx]
      exact hInv.2.2.2.1
    · dsimp only
      rw [mark_dirty_parents_eq, mark_dirty_nodes_length]
      dsimp only
      rw [length_modifyIdx, length_modifyIdx]
      exact hInv.2.2.2.2
  · unfold Taffy.child_at_index Taffy.find_node
    dsimp only
    rw [(find_node_ok_iff t p pid).mp hfp]
    dsimp only
    rw [mark_dirty_children_eq]
    dsimp only
    rw [getElem?_modifyIdx, if_pos rfl, hkids]
    simp only [Option.map_some']
    rw [if_neg (fun hge => absurd hidx (by rw [length_modifyIdx] at hge; exact Nat.not_lt.mpr hge)),
      getElem?_modifyIdx, if_pos rfl, hold]
    simp only [Option.map_some']
    rw [(hInv.1 c cid).mp ((find_node_ok_iff t c cid).mp hfc)]
  · refine ⟨(modifyIdx t.forest.parents cid (· ++ [pid]))[old_child].filter (· ≠ pid), ?_, ?_⟩
    · show ((Forest.mark_dirty _ pid).parents)[old_child]? = _
      rw [mark_dirty_parents_eq]
      dsimp only
      rw [getElem?_modifyIdx, if_pos rfl, List.getElem?_eq_getElem hold_plt]
      rfl
    · intro hmem
      have h2 := (List.mem_filter.mp hmem).2
      simp at h2
  · unfold Taffy.dirty Taffy.find_node
    dsimp only
    rw [(find_node_ok_iff t p pid).mp hfp]
    dsimp only
    unfold Forest.mark_dirty
    dsimp only
    rw [getElem?_setDirty_mem _ _ _ _ (mem_reach_self _ (List.mem_singleton_self pid)),
      List.getElem?_eq_getElem hpidlt]
    rfl

/-- C1: after any sequence of node creations and calls to remove on a fresh
instance, the forward and reverse maps remain a bijection on live nodes
(`Agree`) with the occupied slots exactly the reverse map's domain
(`SlotDom`); and in the relocating case of `remove`, the record of the final
slot moves into the vacated slot, the relocated node's unchanged handle
resolves to the new slot, the removed handle stops resolving, and every
other forward entry is untouched — exactly one bimap entry is rewritten. -/
theorem bimap_bijection_after_creations_and_removals {σ μ : Type} :
    (∀ (iid : Ident) (cap : Nat) (ops : List (TOp σ μ)),
      (∀ op ∈ ops, isCreateOrRemove op = true) →
      ∃ t', exec (Taffy.with_capacity iid cap) ops = some t' ∧ Agree t' ∧ SlotDom t') ∧
    (∀ (t : Taffy σ μ) (h : Node) (i : NodeId), TaffyInv t →
      Map.get t.nodes_to_ids h = some i → i + 1 ≠ t.forest.nodes.length →
      ∃ t' nw, t.remove h = some (t', Except.ok i) ∧
        Map.get t.ids_to_nodes (t.forest.nodes.length - 1) = some nw ∧ nw ≠ h ∧
        Map.get t'.nodes_to_ids nw = some i ∧
        Map.get t'.nodes_to_ids h = none ∧
        (∀ g : Node, g ≠ h → g ≠ nw →
          Map.get t'.nodes_to_ids g = Map.get t.nodes_to_ids g) ∧
        Agree t' ∧ SlotDom t') := by
  constructor
  · intro iid cap ops hops
    obtain ⟨t', hx⟩ := exec_total_create_remove ops _ (with_capacity_inv iid cap) hops
    have hf := exec_facts ops _ t' hx (with_capacity_inv iid cap)
    exact ⟨t', hx, hf.1.1, hf.1.2.1⟩
  · intro t h i hInv hget hrel
    obtain ⟨t', hrem, hInv', _, _, _, hnone, _, hrelc⟩ := remove_spec hInv hget
    obtain ⟨nw, hnw, hnwh, hnwget, hpoint, _⟩ := hrelc hrel
    exact ⟨t', nw, hrem, hnw, hnwh, hnwget, hnone, hpoint, hInv'.1, hInv'.2.1⟩

/-- Witness for C1 at a concrete relocating trace: two leaves are created
and the first is removed, forcing the second record into slot 0. -/
theorem bimap_bijection_witness :
    ∃ t' : Taffy Unit Unit,
      exec (Taffy.with_capacity { val := 0 } 16)
        [TOp.newLeaf () (), TOp.newLeaf () (), TOp.remove (mkNode 0 0)] = some t' ∧
      Agree t' ∧ SlotDom t' :=
  bimap_bijection_after_creations_and_removals.1 { val := 0 } 16
    [TOp.newLeaf () (), TOp.newLeaf () (), TOp.remove (mkNode 0 0)] (by decide)

/-- C2 (counterexample): `replace_child_at_index` with `new_child` equal to
the child already occupying the slot pushes the parent onto the child's
parent list and then retains away every occurrence of the parent — deleting
the entry it just pushed.  Starting from a parent (slot 1) with single child
(slot 0), edge symmetry holds before the call and is broken after it: slot 0
is still the parent's child, but the child's parent list is empty. -/
theorem replace_same_child_breaks_edge_symmetry :
    EdgeSym c2_base ∧
    c2_base.replace_child_at_index (mkNode 0 1) 0 (mkNode 0 0) =
      some (c2_after, Except.ok (mkNode 0 0)) ∧
    (0 : NodeId) ∈ c2_after.forest.children[1]?.getD [] ∧
    (1 : NodeId) ∉ c2_after.forest.parents[0]?.getD [] ∧
    ¬ EdgeSym c2_after :=
  ⟨by decide, by decide, by decide, by decide, by decide⟩

/-- C3: when some child handle of `new_with_children` is unresolvable, the
call returns the `InvalidNode` of such a child, and the forward map, the
reverse map, the arena, and the set of handles that resolve are exactly as
before the call — in particular no parent record was allocated.  (The
local-id counter, which the claim deliberately excludes from the observable
state, has already been bumped.) -/
theorem new_with_children_error_no_mutation {σ μ : Type} (t : Taffy σ μ) (s : σ)
    (cs : List Node) (e : InvalidNode)
    (hcol : collectE t.find_node cs = Except.error e) :
    (∃ c0 ∈ cs, t.find_node c0 = Except.error { node := c0 } ∧ e = { node := c0 }) ∧
    (t.new_with_children s cs).2 = Except.error e ∧
    (t.new_with_children s cs).1.nodes_to_ids = t.nodes_to_ids ∧
    (t.new_with_children s cs).1.ids_to_nodes = t.ids_to_nodes ∧
    (t.new_with_children s cs).1.forest = t.forest ∧
    (∀ g : Node, (t.new_with_children s cs).1.find_node g = t.find_node g) := by
  obtain ⟨c0, hc0, hfc0⟩ := collectE_error_mem t.find_node hcol
  obtain ⟨hg0, he⟩ := get_none_of_find_node_error t c0 e hfc0
  refine ⟨⟨c0, hc0, by rw [hfc0, he], he⟩, ?_, ?_, ?_, ?_, ?_⟩
  · rw [new_with_children_error_eq hcol]
  · rw [new_with_children_error_eq hcol]
  · rw [new_with_children_error_eq hcol]
  · rw [new_with_children_error_eq hcol]
  · intro g
    rw [new_with_children_error_eq hcol, find_node_with_allocator]

/-- Witness for C3: a two-leaf instance is asked for a parent over a
never-issued handle. -/
theorem new_with_children_error_witness :
    (twoLeafT.new_with_children () [mkNode 9 9]).2 =
      Except.error { node := mkNode 9 9 } ∧
    (twoLeafT.new_with_children () [mkNode 9 9]).1.forest = twoLeafT.forest ∧
    (twoLeafT.new_with_children () [mkNode 9 9]).1.nodes_to_ids = twoLeafT.nodes_to_ids :=
  ⟨(new_with_children_error_no_mutation twoLeafT () [mkNode 9 9]
      { node := mkNode 9 9 } (by decide)).2.1,
   (new_with_children_error_no_mutation twoLeafT () [mkNode 9 9]
      { node := mkNode 9 9 } (by decide)).2.2.2.2.1,
   (new_with_children_error_no_mutation twoLeafT () [mkNode 9 9]
      { node := mkNode 9 9 } (by decide)).2.2.1⟩

/-- C6: with a valid parent whose stored child list has `kids.length`
children and any index at least that count, the three child-indexed
operations return `ChildIndexOutOfBounds` carrying exactly the parent
handle, the requested index and the actual count, and return the instance
unchanged. -/
theorem out_of_bounds_child_index {σ μ : Type} (t : Taffy σ μ) (p c : Node)
    (pid cid : NodeId) (kids : List NodeId) (idx : Nat)
    (hfp : t.find_node p = Except.ok pid)
    (hkids : t.forest.children[pid]? = some kids)
    (hidx : idx ≥ kids.length)
    (hfc : t.find_node c = Except.ok cid) :
    t.remove_child_at_index p idx =
      some (t, Except.error (InvalidChild.ChildIndexOutOfBounds p idx kids.length)) ∧
    t.replace_child_at_index p idx c =
      some (t, Except.error (InvalidChild.ChildIndexOutOfBounds p idx kids.length)) ∧
    t.child_at_index p idx =
      some (Except.error (InvalidChild.ChildIndexOutOfBounds p idx kids.length)) := by
  refine ⟨?_, ?_, ?_⟩
  · unfold Taffy.remove_child_at_index
    rw [hfp]
    dsimp only
    rw [hkids]
    dsimp only
    rw [if_pos hidx]
  · unfold Taffy.replace_child_at_index
    rw [hfp]
    dsimp only
    rw [hfc]
    dsimp only
    rw [hkids]
    dsimp only
    rw [if_pos hidx]
  · unfold Taffy.child_at_index
    rw [hfp]
    dsimp only
    rw [hkids]
    dsimp only
    rw [if_pos hidx]

/-- Witness for C6: index 5 against a parent with two children. -/
theorem out_of_bounds_child_index_witness :
    familyT.remove_child_at_index (mkNode 0 3) 5 =
      some (familyT, Except.error
        (InvalidChild.ChildIndexOutOfBounds (mkNode 0 3) 5 2)) ∧
    familyT.replace_child_at_index (mkNode 0 3) 5 (mkNode 0 0) =
      some (familyT, Except.error
        (InvalidChild.ChildIndexOutOfBounds (mkNode 0 3) 5 2)) ∧
    familyT.child_at_index (mkNode 0 3) 5 =
      some (Except.error (InvalidChild.ChildIndexOutOfBounds (mkNode 0 3) 5 2)) :=
  out_of_bounds_child_index familyT (mkNode 0 3) (mkNode 0 0) 3 0 [0, 1] 5
    (by decide) (by decide) (by decide) (by decide)

/-- C9: error precedence of the child-indexed operations.  An unresolvable
parent yields `InvalidParentNode` for every index, even an out-of-range one;
and in `replace_child_at_index` an unresolvable new child yields
`InvalidChildNode` for every index, because the new-child handle is resolved
before the bounds check. -/
theorem child_ops_error_precedence {σ μ : Type} (t : Taffy σ μ) :
    (∀ p : Node, Map.get t.nodes_to_ids p = none →
      ∀ (idx : Nat) (c : Node),
        t.remove_child_at_index p idx =
          some (t, Except.error (InvalidChild.InvalidParentNode p)) ∧
        t.replace_child_at_index p idx c =
          some (t, Except.error (InvalidChild.InvalidParentNode p)) ∧
        t.child_at_index p idx =
          some (Except.error (InvalidChild.InvalidParentNode p))) ∧
    (∀ (p : Node) (pid : NodeId) (c : Node), t.find_node p = Except.ok pid →
      Map.get t.nodes_to_ids c = none → ∀ idx : Nat,
        t.replace_child_at_index p idx c =
          some (t, Except.error (InvalidChild.InvalidChildNode c))) := by
  constructor
  · intro p hgp idx c
    have hfp := find_node_error_of_get_none t p hgp
    refine ⟨?_, ?_, ?_⟩
    · unfold Taffy.remove_child_at_index
      rw [hfp]
    · unfold Taffy.replace_child_at_index
      rw [hfp]
    · unfold Taffy.child_at_index
      rw [hfp]
  · intro p pid c hfp hgc idx
    have hfc := find_node_error_of_get_none t c hgc
    unfold Taffy.replace_child_at_index
    rw [hfp]
    dsimp only
    rw [hfc]

/-- Witness for C9: a bogus parent with an out-of-range index reports the
parent, and a valid parent with a bogus child and an out-of-range index
reports the child. -/
theorem child_ops_error_precedence_witness :
    (familyT.remove_child_at_index (mkNode 9 9) 5 =
      some (familyT, Except.error (InvalidChild.InvalidParentNode (mkNode 9 9))) ∧
     familyT.replace_child_at_index (mkNode 9 9) 5 (mkNode 0 0) =
      some (familyT, Except.error (InvalidChild.InvalidParentNode (mkNode 9 9))) ∧
     familyT.child_at_index (mkNode 9 9) 5 =
      some (Except.error (InvalidChild.InvalidParentNode (mkNode 9 9)))) ∧
    familyT.replace_child_at_index (mkNode 0 3) 5 (mkNode 9 9) =
      some (familyT, Except.error (InvalidChild.InvalidChildNode (mkNode 9 9))) :=
  ⟨(child_ops_error_precedence familyT).1 (mkNode 9 9) (by decide) 5 (mkNode 0 0),
   (child_ops_error_precedence familyT).2 (mkNode 0 3) 3 (mkNode 9 9)
     (by decide) (by decide) 5⟩

/-- C10: `new_leaf` never fails: for every style and measure function it
returns `Ok` with a fresh handle — fresh in that it pairs the instance id
with the never-before-issued next local id, and did not resolve before the
call.  Its `Result` error branch is unreachable since it resolves no input
handles. -/
theorem new_leaf_never_fails {σ μ : Type} (t : Taffy σ μ) (s : σ) (m : μ)
    (hInv : TaffyInv t) :
    (t.new_leaf s m).2 =
      Except.ok { instanceId := t.id, localId := { val := t.allocator.last_id } } ∧
    t.find_node { instanceId := t.id, localId := { val := t.allocator.last_id } } =
      Except.error
        { node := { instanceId := t.id, localId := { val := t.allocator.last_id } } } := by
  constructor
  · rw [new_leaf_eq]
  · apply find_node_error_of_get_none
    cases hg : Map.get t.nodes_to_ids
        { instanceId := t.id, localId := { val := t.allocator.last_id } } with
    | none => rfl
    | some j =>
      have h2 := (hInv.2.2.1 _ j hg).2
      exact absurd h2 (lt_irrefl _)

/-- Witness for C10 on a concrete two-leaf instance: the next leaf is
`mkNode 0 2` and was not previously resolvable. -/
theorem new_leaf_never_fails_witness :
    (twoLeafT.new_leaf () ()).2 = Except.ok (mkNode 0 2) ∧
    twoLeafT.find_node (mkNode 0 2) = Except.error { node := mkNode 0 2 } :=
  new_leaf_never_fails twoLeafT () ()
    (exec_facts twoLeafOps demoT0 twoLeafT rfl (with_capacity_inv _ _)).1

/-- C4: instance isolation.  In any reachable process state, for two
distinct instances A and B, every handle carrying A's instance id is
rejected with `InvalidNode` (or `InvalidParentNode` for the child-indexed
operations) by every fallible operation of B, with no state change: the
process-wide monotone allocator gives distinct instances distinct ids, and
the forward-map lookup keys on the full (instance, local) pair. -/
theorem instance_isolation {σ μ : Type} (wops : List (WOp σ μ)) (w : World σ μ)
    (a b : Nat) (A B : Taffy σ μ) (h : Node)
    (hx : wexec initWorld wops = some w)
    (ha : w.instances[a]? = some A) (hb : w.instances[b]? = some B)
    (hab : a ≠ b) (hA : h.instanceId = A.id) : opsReject B h := by
  have hw := wexec_winv wops initWorld w hx winv_init
  have hBInv := (hw.1 B (getElem?_implies_mem _ _ _ hb)).1
  have hne : h.instanceId ≠ B.id := by
    rw [hA]
    exact winv_distinct_ids hw ha hb hab
  exact opsReject_of_get_none (foreign_get_none hBInv hne)

/-- Witness for C4: two freshly created instances; the first's leaf handle
is rejected everywhere by the second. -/
theorem instance_isolation_witness : opsReject c4_B (mkNode 0 0) :=
  instance_isolation c4_ops c4_world 0 1 c4_A c4_B (mkNode 0 0)
    rfl rfl rfl (by decide) rfl

/-- C5: no-reuse.  After `remove` succeeds on a handle, that exact handle
value is rejected with `InvalidNode` by every operation in every state
reachable by any continuation of the trace — even when the vacated slot is
immediately reassigned — because local ids are issued by fetch-and-increment
and never reissued. -/
theorem removed_handle_never_resolves {σ μ : Type} (t t1 : Taffy σ μ) (h : Node)
    (i : NodeId) (ops : List (TOp σ μ)) (t2 : Taffy σ μ)
    (hInv : TaffyInv t) (hrem : t.remove h = some (t1, Except.ok i))
    (hx : exec t1 ops = some t2) : opsReject t2 h := by
  cases hg : Map.get t.nodes_to_ids h with
  | none =>
    rw [remove_error_eq hg] at hrem
    simp at hrem
  | some i0 =>
    obtain ⟨t1', hrem', hInv', _, halloc', _, hnone, _, _⟩ := remove_spec hInv hg
    rw [hrem'] at hrem
    cases hrem
    have hdead : Dead t1 h := ⟨hnone, by rw [halloc']; exact (hInv.2.2.1 h i hg).2⟩
    have hf := exec_facts ops t1 t2 hx hInv'
    exact opsReject_of_get_none (hf.2.2.2 h hdead).1

/-- Witness for C5: remove the first of two leaves (its slot is recycled by
the relocated record), then create a new leaf (which bumps the counter past
the removed local id's range); the removed handle still resolves nowhere. -/
theorem removed_handle_never_resolves_witness : opsReject c5_t2 (mkNode 0 0) :=
  removed_handle_never_resolves twoLeafT c5_t1 (mkNode 0 0) 0
    [TOp.newLeaf () ()] c5_t2
    (exec_facts twoLeafOps demoT0 twoLeafT rfl (with_capacity_inv _ _)).1
    rfl rfl

/-- C7: successful `replace_child_at_index` returns the handle previously at
the slot, afterwards `child_at_index` at that slot yields the new child, the
displaced child's parent list no longer contains the parent, and the parent
is marked dirty. -/
theorem replace_child_at_index_spec {σ μ : Type} (t : Taffy σ μ) (p c oldh : Node)
    (idx : Nat) (pid cid old_id : NodeId) (kids : List NodeId)
    (hInv : TaffyInv t)
    (hfp : t.find_node p = Except.ok pid)
    (hfc : t.find_node c = Except.ok cid)
    (hkids : t.forest.children[pid]? = some kids)
    (hidx : idx < kids.length)
    (hold : kids[idx]? = some old_id)
    (holdh : Map.get t.ids_to_nodes old_id = some oldh) :
    t.child_at_index p idx = some (Except.ok oldh) ∧
    ∃ t', t.replace_child_at_index p idx c = some (t', Except.ok oldh) ∧
      t'.child_at_index p idx = some (Except.ok c) ∧
      (∃ l, t'.forest.parents[old_id]? = some l ∧ pid ∉ l) ∧
      t'.dirty p = some (Except.ok true) := by
  constructor
  · unfold Taffy.child_at_index
    rw [hfp]
    dsimp only
    rw [hkids]
    dsimp only
    rw [if_neg (fun hge => absurd hidx (Nat.not_lt.mpr hge)), hold]
    dsimp only
    rw [holdh]
  · obtain ⟨t', hres, _, _, hq, hpar, hdirty⟩ :=
      replace_child_ok hInv hfp hfc hkids hidx hold holdh
    exact ⟨t', hres, hq, hpar, hdirty⟩

/-- Witness for C7: in the family instance, replace the parent's second
child (slot 1, handle `mkNode 0 1`) by the spare leaf `mkNode 0 2`. -/
theorem replace_child_at_index_spec_witness :
    familyT.child_at_index (mkNode 0 3) 1 = some (Except.ok (mkNode 0 1)) ∧
    ∃ t', familyT.replace_child_at_index (mkNode 0 3) 1 (mkNode 0 2) =
        some (t', Except.ok (mkNode 0 1)) ∧
      t'.child_at_index (mkNode 0 3) 1 = some (Except.ok (mkNode 0 2)) ∧
      (∃ l, t'.forest.parents[1]? = some l ∧ 3 ∉ l) ∧
      t'.dirty (mkNode 0 3) = some (Except.ok true) :=
  replace_child_at_index_spec familyT (mkNode 0 3) (mkNode 0 2) (mkNode 0 1)
    1 3 2 1 [0, 1]
    (exec_facts familyOps demoT0 familyT rfl (with_capacity_inv _ _)).1
    (by decide) (by decide) (by decide) (by decide) (by decide) (by decide)

/-- C8: order preservation.  Valid child handles passed to `set_children` or
`new_with_children` are returned by a subsequent `children` query in exactly
the given order, and `child_at_index` at position k returns the k-th
handle. -/
theorem children_order_preserved {σ μ : Type} :
    (∀ (t : Taffy σ μ) (p : Node) (cs : List Node) (pid : NodeId) (cids : List NodeId),
      TaffyInv t → t.find_node p = Except.ok pid →
      collectE t.find_node cs = Except.ok cids →
      (∀ c ∈ t.forest.children[pid]?.getD [], c < t.forest.parents.length) →
      ∃ t', t.set_children p cs = some (t', Except.ok ()) ∧
        t'.children p = some (Except.ok cs) ∧
        (∀ (k : Nat) (c0 : Node), cs[k]? = some c0 →
          t'.child_at_index p k = some (Except.ok c0))) ∧
    (∀ (t : Taffy σ μ) (s : σ) (cs : List Node) (cids : List NodeId),
      TaffyInv t → collectE t.find_node cs = Except.ok cids →
      ∃ n, (t.new_with_children s cs).2 = Except.ok n ∧
        (t.new_with_children s cs).1.children n = some (Except.ok cs) ∧
        (∀ (k : Nat) (c0 : Node), cs[k]? = some c0 →
          (t.new_with_children s cs).1.child_at_index n k = some (Except.ok c0))) := by
  constructor
  · intro t p cs pid cids hInv hfp hcol hlive
    obtain ⟨t', hres, hshell, hInv', hkids'⟩ := set_children_ok hInv hfp hcol hlive
    have hf2 := (collectE_ok_forall2 t.find_node).mp hcol
    have hf2' : List.Forall₂ (fun c i => t'.find_node c = Except.ok i) cs cids :=
      hf2.imp (fun c i hci => by rw [find_node_congr hshell.1 c]; exact hci)
    have hfp' : t'.find_node p = Except.ok pid := by
      rw [find_node_congr hshell.1 p]
      exact hfp
    have hq := children_query_of_forall2 hInv' hfp' hkids' hf2'
    exact ⟨t', hres, hq.1, hq.2⟩
  · intro t s cs cids hInv hcol
    obtain ⟨hret, hInv', hfind', hkids', htrans⟩ := new_with_children_wiring hInv hcol
    have hf2 := (collectE_ok_forall2 t.find_node).mp hcol
    have hf2' : List.Forall₂
        (fun c i => (t.new_with_children s cs).1.find_node c = Except.ok i) cs cids :=
      hf2.imp (fun c i hci => htrans c i hci)
    have hq := children_query_of_forall2 hInv' hfind' hkids' hf2'
    exact ⟨_, hret, hq.1, hq.2⟩

/-- Witness for C8: wiring the family parent to [B, A] (reversed order) and
creating a fresh parent over [A, C] both report the children in exactly the
given order. -/
theorem children_order_preserved_witness :
    (∃ t' : Taffy Unit Unit,
      familyT.set_children (mkNode 0 3) [mkNode 0 1, mkNode 0 0] =
        some (t', Except.ok ()) ∧
      t'.children (mkNode 0 3) = some (Except.ok [mkNode 0 1, mkNode 0 0]) ∧
      (∀ (k : Nat) (c0 : Node), [mkNode 0 1, mkNode 0 0][k]? = some c0 →
        t'.child_at_index (mkNode 0 3) k = some (Except.ok c0))) ∧
    (∃ n, (familyT.new_with_children () [mkNode 0 0, mkNode 0 2]).2 = Except.ok n ∧
      (familyT.new_with_children () [mkNode 0 0, mkNode 0 2]).1.children n =
        some (Except.ok [mkNode 0 0, mkNode 0 2]) ∧
      (∀ (k : Nat) (c0 : Node), [mkNode 0 0, mkNode 0 2][k]? = some c0 →
        (familyT.new_with_children () [mkNode 0 0, mkNode 0 2]).1.child_at_index n k =
          some (Except.ok c0))) :=
  ⟨children_order_preserved.1 familyT (mkNode 0 3) [mkNode 0 1, mkNode 0 0] 3 [1, 0]
      (exec_facts familyOps demoT0 familyT rfl (with_capacity_inv _ _)).1
      (by decide) (by decide) (by decide),
   children_order_preserved.2 familyT () [mkNode 0 0, mkNode 0 2] [0, 2]
      (exec_facts familyOps demoT0 familyT rfl (with_capacity_inv _ _)).1
      (by decide)⟩
